import Mathlib

/-
Verification of the popsift KD-tree descriptor index (src/openMVG/localization/KDTree.h)
and the Debevec HDR calibration routine (src/aliceVision/hdr/DebevecCalibrate.cpp).

The KDTree header declares the metric functions, the tree builder and the query engine
but their translation units are not part of this repository fragment; following the
specification those parts are modelled from the spec's algorithm descriptions (each such
definition carries a doc comment starting with `Modelled from the spec:`).  The inline
accessors of class KDTree and the whole of DebevecCalibrate::process are present in the
sources and are embedded directly.

Descriptors are fixed 128-byte vectors; a byte is `Fin 256`, machine `unsigned` values
that the claims touch never overflow 32 bits, so they are embedded as `Nat`.
-/

set_option maxRecDepth 16384

set_option maxHeartbeats 1000000

deriving instance DecidableEq for Except

/-- A byte, the component type of a descriptor (unsigned char in the source). -/
abbrev Byte := Fin 256

/-- U8Descriptor: a fixed 128-byte binary feature vector (KDTree.h line 31). -/
abbrev U8Descriptor := Fin 128 → Byte

/-- BoundingBox: component-wise minimum and maximum descriptor (KDTree.h line 38). -/
structure BoundingBox where
  bmin : U8Descriptor
  bmax : U8Descriptor

/-- DescriptorAssociation: which descriptor a tree-list slot refers to (KDTree.h line 60).
The 32/16/16-bit fields are embedded as Nat; no claim involves their overflow. -/
structure DescriptorAssociation where
  global_index : Nat
  image_index : Nat
  local_index : Nat
deriving DecidableEq

/-- A store entry: one descriptor together with its association record.  The source keeps
the descriptors in a caller-owned array indexed by global_index and the associations in
the tree's list; the embedding keeps them paired. -/
abbrev Entry := U8Descriptor × DescriptorAssociation

/-- The list of all 128 dimensions, used to sum per-dimension contributions. -/
def dims128 : List (Fin 128) := List.finRange 128

/-- Sum of a per-dimension contribution over all 128 dimensions. -/
def sumOver (f : Fin 128 → Nat) : Nat := (dims128.map f).sum

/-- Absolute difference of two bytes, as a Nat. -/
def absDiff (a b : Byte) : Nat := max a.val b.val - min a.val b.val

/-- Squared difference of two bytes, as a Nat. -/
def sqDiff (a b : Byte) : Nat := absDiff a b * absDiff a b

/-- Modelled from the spec: L1Distance(a, b), the sum of absolute byte-wise differences
over all 128 dimensions (KDTree.h line 49 declares it; the implementation is not in this
fragment). -/
def L1Distance (a b : U8Descriptor) : Nat := sumOver (fun i => absDiff (a i) (b i))

/-- Modelled from the spec: L2DistanceSquared(a, b), the sum of squared byte-wise
differences, never square-rooted (KDTree.h line 51 declares it). -/
def L2DistanceSquared (a b : U8Descriptor) : Nat := sumOver (fun i => sqDiff (a i) (b i))

/-- Modelled from the spec: clamp a byte into the interval [lo, hi]. -/
def clampToBox (x lo hi : Byte) : Byte := if x < lo then lo else if hi < x then hi else x

/-- Modelled from the spec: descriptor-to-box L1 distance; each component of the
descriptor is clamped into [box.min, box.max] before differencing (KDTree.h line 50
declares the overload L1Distance(descriptor, box)). -/
def L1DistanceBox (d : U8Descriptor) (b : BoundingBox) : Nat :=
  sumOver (fun i => absDiff (d i) (clampToBox (d i) (b.bmin i) (b.bmax i)))

/-- Modelled from the spec: descriptor-to-box squared L2 distance; clamp each component
into the box before differencing (KDTree.h line 52 declares the overload
L2DistanceSquared(descriptor, box)). -/
def L2DistanceSquaredBox (d : U8Descriptor) (b : BoundingBox) : Nat :=
  sumOver (fun i => sqDiff (d i) (clampToBox (d i) (b.bmin i) (b.bmax i)))

/-- Modelled from the spec: Union(boxA, boxB), the component-wise min/max merge
(KDTree.h line 53 declares it as Union). -/
def boxUnion (a b : BoundingBox) : BoundingBox :=
  ⟨fun i => min (a.bmin i) (b.bmin i), fun i => max (a.bmax i) (b.bmax i)⟩

/-- A box component-wise contains another box. -/
def BBContainsBB (outer inner : BoundingBox) : Prop :=
  ∀ i, outer.bmin i ≤ inner.bmin i ∧ inner.bmax i ≤ outer.bmax i

/-- A box component-wise contains a descriptor. -/
def BBContainsDesc (b : BoundingBox) (d : U8Descriptor) : Prop :=
  ∀ i, b.bmin i ≤ d i ∧ d i ≤ b.bmax i

instance (outer inner : BoundingBox) : Decidable (BBContainsBB outer inner) :=
  inferInstanceAs (Decidable (∀ _i, _ ∧ _))

instance (b : BoundingBox) (d : U8Descriptor) : Decidable (BBContainsDesc b d) :=
  inferInstanceAs (Decidable (∀ _i, _ ∧ _))

/-- The empty bounding box: min above every byte, max below every byte; it is the
neutral element of boxUnion on byte-valued data. -/
def emptyBB : BoundingBox := ⟨fun _ => 255, fun _ => 0⟩

/-- Modelled from the spec: the bounding box of a set of descriptors, folding the
component-wise min/max merge over the set (GetBoundingBox, KDTree.h line 178). -/
def bboxOf (ds : List U8Descriptor) : BoundingBox :=
  ds.foldr (fun d b => boxUnion ⟨d, d⟩ b) emptyBB

lemma sumOver_le_sumOver {f g : Fin 128 → Nat} (h : ∀ i, f i ≤ g i) :
    sumOver f ≤ sumOver g := by
  unfold sumOver
  apply List.sum_le_sum
  intro i _
  exact h i

lemma sumOver_eq_zero {f : Fin 128 → Nat} (h : ∀ i, f i = 0) : sumOver f = 0 := by
  unfold sumOver
  apply List.sum_eq_zero
  intro x hx
  rcases List.mem_map.mp hx with ⟨i, _, rfl⟩
  exact h i

lemma clampToBox_of_mem {x lo hi : Byte} (h1 : lo ≤ x) (h2 : x ≤ hi) :
    clampToBox x lo hi = x := by
  unfold clampToBox
  rw [if_neg (not_lt.mpr h1), if_neg (not_lt.mpr h2)]

lemma absDiff_clamp_le {x lo hi e : Byte} (h1 : lo ≤ e) (h2 : e ≤ hi) :
    absDiff x (clampToBox x lo hi) ≤ absDiff x e := by
  have h1' : lo.val ≤ e.val := h1
  have h2' : e.val ≤ hi.val := h2
  unfold clampToBox
  by_cases hxl : x < lo
  · rw [if_pos hxl]
    have : x.val < lo.val := hxl
    unfold absDiff
    omega
  · rw [if_neg hxl]
    have hxl' : lo.val ≤ x.val := not_lt.mp hxl
    by_cases hxh : hi < x
    · rw [if_pos hxh]
      have : hi.val < x.val := hxh
      unfold absDiff
      omega
    · rw [if_neg hxh]
      unfold absDiff
      omega

lemma absDiff_self (x : Byte) : absDiff x x = 0 := by
  unfold absDiff
  omega

/-- C6: the descriptor-to-box distances (L1 and squared L2) clamp each component into
the box before differencing; they vanish when the descriptor lies inside the box, and
they lower-bound the corresponding descriptor-to-descriptor distance to any descriptor
contained in the box. -/
theorem c6_box_distance_lower_bound (d e : U8Descriptor) (b : BoundingBox)
    (he : BBContainsDesc b e) :
    L1DistanceBox d b ≤ L1Distance d e ∧
    L2DistanceSquaredBox d b ≤ L2DistanceSquared d e ∧
    (BBContainsDesc b d → L1DistanceBox d b = 0 ∧ L2DistanceSquaredBox d b = 0) := by
  have key : ∀ i, absDiff (d i) (clampToBox (d i) (b.bmin i) (b.bmax i)) ≤ absDiff (d i) (e i) := by
    intro i
    exact absDiff_clamp_le (he i).1 (he i).2
  refine ⟨?_, ?_, ?_⟩
  · exact sumOver_le_sumOver key
  · apply sumOver_le_sumOver
    intro i
    exact Nat.mul_le_mul (key i) (key i)
  · intro hd
    constructor
    · apply sumOver_eq_zero
      intro i
      rw [clampToBox_of_mem (hd i).1 (hd i).2, absDiff_self]
    · apply sumOver_eq_zero
      intro i
      rw [clampToBox_of_mem (hd i).1 (hd i).2]
      unfold sqDiff
      rw [absDiff_self]

/-- Witness for C6 at a concrete descriptor and box. -/
theorem c6_box_distance_lower_bound_witness :
    BBContainsDesc ⟨fun _ => 0, fun _ => 7⟩ (fun _ => 3) ∧
    (L1DistanceBox (fun _ => 5) ⟨fun _ => 0, fun _ => 7⟩ ≤ L1Distance (fun _ => 5) (fun _ => 3) ∧
     L2DistanceSquaredBox (fun _ => 5) ⟨fun _ => 0, fun _ => 7⟩ ≤
       L2DistanceSquared (fun _ => 5) (fun _ => 3) ∧
     (BBContainsDesc ⟨fun _ => 0, fun _ => 7⟩ (fun _ => 5) →
       L1DistanceBox (fun _ => 5) ⟨fun _ => 0, fun _ => 7⟩ = 0 ∧
       L2DistanceSquaredBox (fun _ => 5) ⟨fun _ => 0, fun _ => 7⟩ = 0)) :=
  ⟨by decide, c6_box_distance_lower_bound (fun _ => 5) (fun _ => 3) ⟨fun _ => 0, fun _ => 7⟩ (by decide)⟩

lemma bbContainsBB_trans {a b c : BoundingBox} (h1 : BBContainsBB a b) (h2 : BBContainsBB b c) :
    BBContainsBB a c := by
  intro i
  exact ⟨le_trans (h1 i).1 (h2 i).1, le_trans (h2 i).2 (h1 i).2⟩

lemma bbContains_union_of {a x y : BoundingBox} (hx : BBContainsBB a x) (hy : BBContainsBB a y) :
    BBContainsBB a (boxUnion x y) := by
  intro i
  refine ⟨le_min (hx i).1 (hy i).1, max_le (hx i).2 (hy i).2⟩

lemma bbContains_emptyBB (a : BoundingBox) : BBContainsBB a emptyBB := by
  intro i
  constructor
  · show a.bmin i ≤ (255 : Fin 256)
    have := (a.bmin i).isLt
    exact Fin.le_def.mpr (by omega)
  · show (0 : Fin 256) ≤ a.bmax i
    exact Fin.le_def.mpr (by omega)

lemma bbContainsDesc_iff (a : BoundingBox) (d : U8Descriptor) :
    BBContainsDesc a d ↔ BBContainsBB a ⟨d, d⟩ := Iff.rfl

/-- A box that contains every member of a list contains the list's bounding box. -/
lemma bbContains_bboxOf {a : BoundingBox} {ds : List U8Descriptor}
    (h : ∀ d ∈ ds, BBContainsDesc a d) : BBContainsBB a (bboxOf ds) := by
  induction ds with
  | nil => exact bbContains_emptyBB a
  | cons d ds ih =>
    show BBContainsBB a (boxUnion ⟨d, d⟩ (bboxOf ds))
    apply bbContains_union_of
    · exact (bbContainsDesc_iff a d).mp (h d (List.mem_cons_self d ds))
    · exact ih (fun e he => h e (List.mem_cons_of_mem d he))

/-- The bounding box of a list contains every member of the list. -/
lemma bboxOf_contains_mem {ds : List U8Descriptor} {d : U8Descriptor} (h : d ∈ ds) :
    BBContainsDesc (bboxOf ds) d := by
  induction ds with
  | nil => cases h
  | cons e ds ih =>
    show BBContainsDesc (boxUnion ⟨e, e⟩ (bboxOf ds)) d
    rcases List.mem_cons.mp h with rfl | hm
    · intro i
      exact ⟨min_le_left _ _, le_max_left _ _⟩
    · intro i
      refine ⟨le_trans (min_le_right _ _) ((ih hm) i).1, le_trans ((ih hm) i).2 (le_max_right _ _)⟩

/-- The bounding box of a list contains the bounding box of any list of its members. -/
lemma bbox_contains_of_subset {xs ys : List U8Descriptor} (h : ∀ d ∈ ys, d ∈ xs) :
    BBContainsBB (bboxOf xs) (bboxOf ys) :=
  bbContains_bboxOf (fun d hd => bboxOf_contains_mem (h d hd))

/-- SPLIT_DIMENSION_COUNT: count of dimensions with highest spread to randomly split
against (KDTree.h line 57). -/
def SPLIT_DIMENSION_COUNT : Nat := 5

/-- An abstract built KD tree: internal nodes carry the split dimension and value, leaves
carry their slice of the (reordered) association list.  The packed array layout of the
source is produced from this shape by `flat` below, exactly as the source builder lays
nodes out in pre-order. -/
inductive KDT where
  | leaf (elems : List Entry)
  | node (dim : Fin 128) (val : Byte) (left right : KDT)

/-- The elements indexed below a subtree, in left-to-right order; for a whole tree this
is the tree's reordered association list. -/
def KDT.elems : KDT → List Entry
  | .leaf xs => xs
  | .node _ _ l r => l.elems ++ r.elems

/-- Number of nodes of a subtree (internal nodes and leaves). -/
def KDT.size : KDT → Nat
  | .leaf _ => 1
  | .node _ _ l r => 1 + l.size + r.size

/-- Number of leaves of a subtree. -/
def KDT.leafCount : KDT → Nat
  | .leaf _ => 1
  | .node _ _ l r => l.leafCount + r.leafCount

/-- The leaves' element lists, in left-to-right order. -/
def KDT.leaves : KDT → List (List Entry)
  | .leaf xs => [xs]
  | .node _ _ l r => l.leaves ++ r.leaves

/-- The bounding box of a subtree: the box of the descriptors below it, exactly what the
spec's builder computes for each node from its range (step 2 of the build algorithm). -/
def KDT.box (t : KDT) : BoundingBox := bboxOf (t.elems.map Prod.fst)

lemma KDT.size_pos (t : KDT) : 1 ≤ t.size := by
  cases t with
  | leaf xs => exact le_refl 1
  | node d v l r => show 1 ≤ 1 + l.size + r.size ; omega

lemma KDT.leafCount_pos (t : KDT) : 1 ≤ t.leafCount := by
  induction t with
  | leaf xs => exact le_refl 1
  | node d v l r ihl ihr => show 1 ≤ l.leafCount + r.leafCount ; omega

/-- Modelled from the spec: the spread (max minus min) of a dimension over a range of
descriptors, the deterministic ranking metric for split-dimension selection. -/
def spreadOf (ds : List U8Descriptor) (i : Fin 128) : Nat :=
  (ds.map (fun d => (d i).val)).foldr max 0 - (ds.map (fun d => (d i).val)).foldr min 255

/-- Insert a (spread, dimension) pair into a list sorted by decreasing spread. -/
def insertBySpread (x : Nat × Fin 128) : List (Nat × Fin 128) → List (Nat × Fin 128)
  | [] => [x]
  | y :: ys => if y.1 ≤ x.1 then x :: y :: ys else y :: insertBySpread x ys

/-- Modelled from the spec: the top SPLIT_DIMENSION_COUNT dimensions ranked by spread
over the range (GetSplitDimensions, KDTree.h line 179). -/
def topSplitDims (ds : List U8Descriptor) : List (Fin 128) :=
  (((dims128.map (fun i => (spreadOf ds i, i))).foldr insertBySpread []).map Prod.snd).take
    SPLIT_DIMENSION_COUNT

/-- The midpoint of two byte values, as a byte. -/
def midByte (lo hi : Nat) : Byte := ⟨(min lo 255 + min hi 255) / 2, by omega⟩

/-- Modelled from the spec: choose the split dimension uniformly among the top five by
spread using the builder's random stream (here an oracle value r), and split at the
midpoint of that dimension's range.  The spec leaves the exact split-value rule open;
the claims hold for every choice function. -/
def chooseSplit (r : Nat) (ds : List U8Descriptor) : Fin 128 × Byte :=
  let cand := topSplitDims ds
  let d := cand.getD (r % SPLIT_DIMENSION_COUNT) 0
  let lo := (ds.map (fun e => (e d).val)).foldr min 255
  let hi := (ds.map (fun e => (e d).val)).foldr max 0
  (d, midByte lo hi)

/-- Modelled from the spec: partition a range by the split predicate; if one side would
be empty (a degenerate range) fall back to an arbitrary split point at the middle so the
recursion still terminates (spec section 4.2, failure conditions). -/
def splitRange (p : Entry → Bool) (xs : List Entry) : List Entry × List Entry :=
  if (xs.filter p).isEmpty || (xs.filter (fun a => !(p a))).isEmpty then
    (xs.take (xs.length / 2), xs.drop (xs.length / 2))
  else (xs.filter p, xs.filter (fun a => !(p a)))

lemma splitRange_perm (p : Entry → Bool) (xs : List Entry) :
    List.Perm ((splitRange p xs).1 ++ (splitRange p xs).2) xs := by
  unfold splitRange
  by_cases h : ((xs.filter p).isEmpty || (xs.filter (fun a => !(p a))).isEmpty) = true
  · rw [if_pos h]
    show List.Perm (xs.take (xs.length / 2) ++ xs.drop (xs.length / 2)) xs
    rw [List.take_append_drop]
  · rw [if_neg h]
    exact List.filter_append_perm p xs

lemma splitRange_nonempty (p : Entry → Bool) (xs : List Entry) (h2 : 2 ≤ xs.length) :
    1 ≤ (splitRange p xs).1.length ∧ 1 ≤ (splitRange p xs).2.length := by
  unfold splitRange
  by_cases h : ((xs.filter p).isEmpty || (xs.filter (fun a => !(p a))).isEmpty) = true
  · rw [if_pos h]
    show 1 ≤ (xs.take (xs.length / 2)).length ∧ 1 ≤ (xs.drop (xs.length / 2)).length
    rw [List.length_take, List.length_drop]
    omega
  · rw [if_neg h]
    rw [Bool.or_eq_true_iff] at h
    push_neg at h
    have h1 : xs.filter p ≠ [] := by
      intro hnil
      exact h.1 (by rw [hnil]; rfl)
    have h2' : xs.filter (fun a => !(p a)) ≠ [] := by
      intro hnil
      exact h.2 (by rw [hnil]; rfl)
    exact ⟨List.length_pos.mpr h1, List.length_pos.mpr h2'⟩

lemma splitRange_length (p : Entry → Bool) (xs : List Entry) (h2 : 2 ≤ xs.length) :
    (splitRange p xs).1.length < xs.length ∧ (splitRange p xs).2.length < xs.length ∧
    (splitRange p xs).1.length + (splitRange p xs).2.length = xs.length := by
  have hp := (splitRange_perm p xs).length_eq
  rw [List.length_append] at hp
  have hne := splitRange_nonempty p xs h2
  exact ⟨by omega, by omega, hp⟩

/-- Modelled from the spec: the recursive single-tree builder.  A range no longer than
leaf_size becomes a leaf; otherwise the range is partitioned on the chosen split
dimension/value and the two sub-ranges are built recursively.  The random stream of the
source is modelled by an oracle `rng` mapping the current range to a choice; `fuel`
bounds the recursion depth by the range length, which strictly decreases at every split,
so the fuel case 0 is never reached from `buildT`. -/
def buildTF (leafSize : Nat) (rng : List Entry → Nat) : Nat → List Entry → KDT
  | 0, xs => .leaf xs
  | fuel + 1, xs =>
    if xs.length ≤ leafSize ∨ xs.length < 2 then .leaf xs
    else
      let dv := chooseSplit (rng xs) (xs.map Prod.fst)
      let pr := splitRange (fun a => a.fst dv.1 ≤ dv.2) xs
      .node dv.1 dv.2 (buildTF leafSize rng fuel pr.1) (buildTF leafSize rng fuel pr.2)

/-- Modelled from the spec: build one tree over a whole range. -/
def buildT (leafSize : Nat) (rng : List Entry → Nat) (xs : List Entry) : KDT :=
  buildTF leafSize rng xs.length xs

/-- The builder reorders the range: the elements below the built tree are a permutation
of the input range. -/
lemma buildTF_elems_perm (leafSize : Nat) (rng : List Entry → Nat) :
    ∀ fuel xs, List.Perm (buildTF leafSize rng fuel xs).elems xs := by
  intro fuel
  induction fuel with
  | zero => intro xs; exact List.Perm.refl xs
  | succ fuel ih =>
    intro xs
    rw [buildTF]
    by_cases h : xs.length ≤ leafSize ∨ xs.length < 2
    · rw [if_pos h]
      exact List.Perm.refl xs
    · rw [if_neg h]
      exact List.Perm.trans (List.Perm.append (ih _) (ih _)) (splitRange_perm _ xs)

lemma buildT_elems_perm (leafSize : Nat) (rng : List Entry → Nat) (xs : List Entry) :
    List.Perm (buildT leafSize rng xs).elems xs :=
  buildTF_elems_perm leafSize rng xs.length xs

/-- Every leaf produced by the builder holds at most leaf_size elements (for a positive
leaf_size and sufficient fuel). -/
lemma buildTF_leaves_le (leafSize : Nat) (rng : List Entry → Nat) (hLS : 1 ≤ leafSize) :
    ∀ fuel xs, xs.length ≤ fuel →
      ∀ ys ∈ (buildTF leafSize rng fuel xs).leaves, ys.length ≤ leafSize := by
  intro fuel
  induction fuel with
  | zero =>
    intro xs hx ys hys
    have hxnil : xs = [] := List.length_eq_zero.mp (by omega)
    subst hxnil
    have : ys = [] := by
      simpa [buildTF, KDT.leaves] using hys
    subst this
    simp only [List.length_nil]
    omega
  | succ fuel ih =>
    intro xs hx ys hys
    rw [buildTF] at hys
    by_cases h : xs.length ≤ leafSize ∨ xs.length < 2
    · rw [if_pos h] at hys
      have : ys = xs := by
        simpa [KDT.leaves] using hys
      subst this
      omega
    · rw [if_neg h] at hys
      push_neg at h
      have hlen := splitRange_length
        (fun a => a.fst (chooseSplit (rng xs) (xs.map Prod.fst)).1 ≤
          (chooseSplit (rng xs) (xs.map Prod.fst)).2) xs (by omega)
      have hys' : ys ∈ (buildTF leafSize rng fuel _).leaves ∨
          ys ∈ (buildTF leafSize rng fuel _).leaves := List.mem_append.mp hys
      rcases hys' with hys' | hys'
      · exact ih _ (by omega) ys hys'
      · exact ih _ (by omega) ys hys'

lemma buildT_leaves_le (leafSize : Nat) (rng : List Entry → Nat) (hLS : 1 ≤ leafSize)
    (xs : List Entry) : ∀ ys ∈ (buildT leafSize rng xs).leaves, ys.length ≤ leafSize :=
  buildTF_leaves_le leafSize rng hLS xs.length xs (le_refl _)

/-- The packed 8-byte node record (KDTree.h line 140): `index` is the right link of an
internal node or the begin list index of a leaf; `leaf` is the tag bit; `dim`/`val` are
the split data of an internal node; `endd` is the end list index of a leaf (the union in
the source is modelled by keeping both variants' fields, the unused ones zero). -/
structure PackedNode where
  index : Nat
  leaf : Bool
  dim : Fin 128
  val : Byte
  endd : Nat
deriving DecidableEq

/-- Default packed node used as getD fallback. -/
def dfltPacked : PackedNode := ⟨0, true, 0, 0, 0⟩

/-- Default node/box pair used as getD fallback. -/
def dfltFlat : PackedNode × BoundingBox := (dfltPacked, emptyBB)

/-- Modelled from the spec: lay a built tree out as the source builder does — the node at
the head, the left child at the next index (no explicit left link, KDTree.h line 139),
the right child at the next free slot after the whole left subtree; every node carries
its bounding box, and a leaf node stores its [begin, end) range of the association list.
`self` is the index of the subtree root in the whole array, `ofs` the begin index of the
subtree's range in the association list. -/
def flat : KDT → Nat → Nat → List (PackedNode × BoundingBox)
  | .leaf xs, _self, ofs => [(⟨ofs, true, 0, 0, ofs + xs.length⟩, (KDT.leaf xs).box)]
  | .node d v l r, self, ofs =>
    (⟨self + 1 + l.size, false, d, v, 0⟩, (KDT.node d v l r).box) ::
      (flat l (self + 1) ofs ++ flat r (self + 1 + l.size) (ofs + l.elems.length))

lemma flat_length (t : KDT) : ∀ self ofs, (flat t self ofs).length = t.size := by
  induction t with
  | leaf xs => intro self ofs; rfl
  | node d v l r ihl ihr =>
    intro self ofs
    simp only [flat, List.length_cons, List.length_append, KDT.size, ihl, ihr]
    omega

lemma mapFst_getD (l : List (PackedNode × BoundingBox)) :
    ∀ n, (l.map Prod.fst).getD n dfltPacked = (l.getD n dfltFlat).1 := by
  induction l with
  | nil => intro n; rfl
  | cons x xs ih =>
    intro n
    cases n with
    | zero => rfl
    | succ k =>
      show (xs.map Prod.fst).getD k dfltPacked = (xs.getD k dfltFlat).1
      exact ih k

lemma mapSnd_getD (l : List (PackedNode × BoundingBox)) :
    ∀ n, (l.map Prod.snd).getD n emptyBB = (l.getD n dfltFlat).2 := by
  induction l with
  | nil => intro n; rfl
  | cons x xs ih =>
    intro n
    cases n with
    | zero => rfl
    | succ k =>
      show (xs.map Prod.snd).getD k emptyBB = (xs.getD k dfltFlat).2
      exact ih k

/-- KDTree (KDTree.h line 69): packed node array, parallel bounding-box array and the
reordered association list.  `nodes`, `bb` and `list` embed the members _nodes, _bb and
_list. -/
structure KDTree where
  nodes : List PackedNode
  bb : List BoundingBox
  list : List Entry

/-- Realize an abstract built tree as the packed structure, root at index 0. -/
def KDTree.ofT (t : KDT) : KDTree :=
  ⟨(flat t 0 0).map Prod.fst, (flat t 0 0).map Prod.snd, t.elems⟩

/-- The two failure modes of the node accessors: std::vector::at throws
std::out_of_range for a bad index, POPSIFT_KDASSERT (KDTree.h line 20) throws
std::logic_error through assert_fail (KDTree.h line 27). -/
inductive KDErr where
  | outOfRange
  | assertFail
deriving DecidableEq

/-- Root accessor (KDTree.h line 79): node 0 is always the root. -/
def KDTree.Root (_t : KDTree) : Nat := 0

/-- NodeCount accessor (KDTree.h line 84). -/
def KDTree.NodeCount (t : KDTree) : Nat := t.nodes.length

/-- IsLeaf accessor (KDTree.h line 89): _nodes.at(n).leaf. -/
def KDTree.IsLeaf (t : KDTree) (n : Nat) : Except KDErr Bool :=
  match t.nodes[n]? with
  | none => .error .outOfRange
  | some nd => .ok nd.leaf

/-- Left accessor (KDTree.h line 94): asserts the node is internal, then returns n+1. -/
def KDTree.Left (t : KDTree) (n : Nat) : Except KDErr Nat :=
  match t.nodes[n]? with
  | none => .error .outOfRange
  | some nd => if nd.leaf then .error .assertFail else .ok (n + 1)

/-- Right accessor (KDTree.h line 100): asserts the node is internal, then returns the
stored right link. -/
def KDTree.Right (t : KDTree) (n : Nat) : Except KDErr Nat :=
  match t.nodes[n]? with
  | none => .error .outOfRange
  | some nd => if nd.leaf then .error .assertFail else .ok nd.index

/-- Dim accessor (KDTree.h line 106): asserts the node is internal, then returns the
split dimension. -/
def KDTree.Dim (t : KDTree) (n : Nat) : Except KDErr Nat :=
  match t.nodes[n]? with
  | none => .error .outOfRange
  | some nd => if nd.leaf then .error .assertFail else .ok nd.dim.val

/-- Val accessor (KDTree.h line 112): asserts the node is internal, then returns the
split value. -/
def KDTree.Val (t : KDTree) (n : Nat) : Except KDErr Nat :=
  match t.nodes[n]? with
  | none => .error .outOfRange
  | some nd => if nd.leaf then .error .assertFail else .ok nd.val.val

/-- List accessor (KDTree.h line 123): asserts the node is a leaf with a range inside
the association list, then returns the [begin, end) slice bounds. -/
def KDTree.ListRange (t : KDTree) (n : Nat) : Except KDErr (Nat × Nat) :=
  match t.nodes[n]? with
  | none => .error .outOfRange
  | some nd =>
    if nd.leaf ∧ nd.endd ≤ t.list.length then .ok (nd.index, nd.endd)
    else .error .assertFail

/-- C2: calling Left, Right, Dim or Val on a leaf node, or any of them with an
out-of-range node index, yields the assertion/out-of-range exception and never returns a
value. -/
theorem c2_accessor_assertions (t : KDTree) (n : Nat)
    (h : t.IsLeaf n = Except.ok true ∨ t.NodeCount ≤ n) :
    (∃ e, t.Left n = Except.error e) ∧ (∃ e, t.Right n = Except.error e) ∧
    (∃ e, t.Dim n = Except.error e) ∧ (∃ e, t.Val n = Except.error e) := by
  rcases h with h | h
  · cases hg : t.nodes[n]? with
    | none => simp [KDTree.IsLeaf, hg] at h
    | some nd =>
      have hleaf : nd.leaf = true := by
        simpa [KDTree.IsLeaf, hg] using h
      refine ⟨⟨KDErr.assertFail, ?_⟩, ⟨KDErr.assertFail, ?_⟩,
        ⟨KDErr.assertFail, ?_⟩, ⟨KDErr.assertFail, ?_⟩⟩ <;>
        simp [KDTree.Left, KDTree.Right, KDTree.Dim, KDTree.Val, hg, hleaf]
  · have hg : t.nodes[n]? = none := List.getElem?_eq_none h
    refine ⟨⟨KDErr.outOfRange, ?_⟩, ⟨KDErr.outOfRange, ?_⟩,
      ⟨KDErr.outOfRange, ?_⟩, ⟨KDErr.outOfRange, ?_⟩⟩ <;>
      simp [KDTree.Left, KDTree.Right, KDTree.Dim, KDTree.Val, hg]

/-- Witness for C2 on a concrete one-leaf tree. -/
theorem c2_accessor_assertions_witness :
    ((KDTree.ofT (KDT.leaf [])).IsLeaf 0 = Except.ok true ∨
      (KDTree.ofT (KDT.leaf [])).NodeCount ≤ 0) ∧
    ((∃ e, (KDTree.ofT (KDT.leaf [])).Left 0 = Except.error e) ∧
     (∃ e, (KDTree.ofT (KDT.leaf [])).Right 0 = Except.error e) ∧
     (∃ e, (KDTree.ofT (KDT.leaf [])).Dim 0 = Except.error e) ∧
     (∃ e, (KDTree.ofT (KDT.leaf [])).Val 0 = Except.error e)) :=
  ⟨Or.inl rfl, c2_accessor_assertions (KDTree.ofT (KDT.leaf [])) 0 (Or.inl rfl)⟩

/-- Index structure of the packed layout: every internal node's stored right link points
strictly past the node itself and stays inside the subtree's node range. -/
lemma flat_index_bound (t : KDT) : ∀ self ofs n, n < t.size →
    ((flat t self ofs).getD n dfltFlat).1.leaf = false →
    self + n < ((flat t self ofs).getD n dfltFlat).1.index ∧
    ((flat t self ofs).getD n dfltFlat).1.index < self + t.size := by
  induction t with
  | leaf xs =>
    intro self ofs n hn hleaf
    have hn0 : n = 0 := by
      simp only [KDT.size] at hn
      omega
    subst hn0
    simp only [flat, List.getD_cons_zero] at hleaf
    cases hleaf
  | node d v l r ihl ihr =>
    intro self ofs n hn hleaf
    have hlsize := flat_length l (self + 1) ofs
    have hrsize := flat_length r (self + 1 + l.size) (ofs + l.elems.length)
    cases n with
    | zero =>
      simp only [flat, List.getD_cons_zero]
      have := r.size_pos
      simp only [KDT.size]
      omega
    | succ k =>
      simp only [flat, List.getD_cons_succ] at hleaf ⊢
      simp only [KDT.size] at hn
      by_cases hk : k < l.size
      · rw [List.getD_append _ _ _ _ (by omega)] at hleaf ⊢
        have := ihl (self + 1) ofs k hk hleaf
        simp only [KDT.size]
        omega
      · rw [List.getD_append_right _ _ _ _ (by omega)] at hleaf ⊢
        rw [hlsize] at hleaf ⊢
        have hkr : k - l.size < r.size := by omega
        have := ihr (self + 1 + l.size) (ofs + l.elems.length) (k - l.size) hkr hleaf
        simp only [KDT.size]
        omega

lemma ofT_nodes_getD (t : KDT) (n : Nat) :
    (KDTree.ofT t).nodes.getD n dfltPacked = ((flat t 0 0).getD n dfltFlat).1 :=
  mapFst_getD (flat t 0 0) n

lemma ofT_bb_getD (t : KDT) (n : Nat) :
    (KDTree.ofT t).bb.getD n emptyBB = ((flat t 0 0).getD n dfltFlat).2 :=
  mapSnd_getD (flat t 0 0) n

lemma ofT_nodes_length (t : KDT) : (KDTree.ofT t).nodes.length = t.size := by
  show ((flat t 0 0).map Prod.fst).length = t.size
  rw [List.length_map]
  exact flat_length t 0 0

/-- C3: in every built tree node 0 is the root; Left of an internal node n is exactly
n + 1 and Right of an internal node n is strictly greater than n. -/
theorem c3_root_and_child_indices (store : List Entry) (leafSize : Nat)
    (rng : List Entry → Nat) :
    (KDTree.ofT (buildT leafSize rng store)).Root = 0 ∧
    0 < (KDTree.ofT (buildT leafSize rng store)).NodeCount ∧
    ∀ n, (KDTree.ofT (buildT leafSize rng store)).IsLeaf n = Except.ok false →
      (KDTree.ofT (buildT leafSize rng store)).Left n = Except.ok (n + 1) ∧
      ∃ m, (KDTree.ofT (buildT leafSize rng store)).Right n = Except.ok m ∧ n < m := by
  refine ⟨rfl, ?_, ?_⟩
  · show 0 < (KDTree.ofT (buildT leafSize rng store)).nodes.length
    rw [ofT_nodes_length]
    exact (buildT leafSize rng store).size_pos
  · intro n h
    cases hg : (KDTree.ofT (buildT leafSize rng store)).nodes[n]? with
    | none => simp [KDTree.IsLeaf, hg] at h
    | some nd =>
      have hleaf : nd.leaf = false := by
        simpa [KDTree.IsLeaf, hg] using h
      have hn : n < (KDTree.ofT (buildT leafSize rng store)).nodes.length := by
        by_contra hc
        rw [List.getElem?_eq_none (by omega)] at hg
        cases hg
      have hnd : ((flat (buildT leafSize rng store) 0 0).getD n dfltFlat).1 = nd := by
        rw [← ofT_nodes_getD, List.getD_eq_getElem?_getD, hg]
        rfl
      have hsz : n < (buildT leafSize rng store).size := by
        rw [ofT_nodes_length] at hn
        exact hn
      have hbound := flat_index_bound (buildT leafSize rng store) 0 0 n hsz
        (by rw [hnd]; exact hleaf)
      rw [hnd] at hbound
      constructor
      · simp [KDTree.Left, hg, hleaf]
      · exact ⟨nd.index, by simp [KDTree.Right, hg, hleaf], by omega⟩

/-- Witness for C3: a two-element store with leaf size 1 builds a root with two leaf
children; its internal root satisfies the child index equations. -/
theorem c3_root_and_child_indices_witness :
    ((KDTree.ofT (buildT 1 (fun _ => 0)
        [((fun _ => 0), ⟨0, 0, 0⟩), ((fun _ => 9), ⟨1, 0, 1⟩)])).IsLeaf 0 = Except.ok false) ∧
    ((KDTree.ofT (buildT 1 (fun _ => 0)
        [((fun _ => 0), ⟨0, 0, 0⟩), ((fun _ => 9), ⟨1, 0, 1⟩)])).Left 0 = Except.ok 1 ∧
     ∃ m, (KDTree.ofT (buildT 1 (fun _ => 0)
        [((fun _ => 0), ⟨0, 0, 0⟩), ((fun _ => 9), ⟨1, 0, 1⟩)])).Right 0 = Except.ok m ∧ 0 < m) :=
  ⟨by decide,
   (c3_root_and_child_indices
      [((fun _ => 0), ⟨0, 0, 0⟩), ((fun _ => 9), ⟨1, 0, 1⟩)] 1 (fun _ => 0)).2.2 0 (by decide)⟩

/-- The [begin, end) list ranges of the leaf nodes of a packed node array, in node
order. -/
def leafRanges (ns : List PackedNode) : List (Nat × Nat) :=
  ns.filterMap (fun nd => if nd.leaf then some (nd.index, nd.endd) else none)

/-- The leaf ranges of an abstract subtree whose list range begins at ofs. -/
def rangesT : KDT → Nat → List (Nat × Nat)
  | .leaf xs, ofs => [(ofs, ofs + xs.length)]
  | .node _ _ l r, ofs => rangesT l ofs ++ rangesT r (ofs + l.elems.length)

/-- The ranges tile the interval [a, b) exactly: consecutive, no gaps, no overlaps. -/
def tiles : Nat → List (Nat × Nat) → Nat → Prop
  | a, [], b => a = b
  | a, p :: rest, b => p.1 = a ∧ a ≤ p.2 ∧ tiles p.2 rest b

lemma tiles_append {u v : List (Nat × Nat)} :
    ∀ {a m b}, tiles a u m → tiles m v b → tiles a (u ++ v) b := by
  induction u with
  | nil =>
    intro a m b hu hv
    cases hu
    exact hv
  | cons p rest ih =>
    intro a m b hu hv
    exact ⟨hu.1, hu.2.1, ih hu.2.2 hv⟩

lemma rangesT_tiles (t : KDT) : ∀ ofs, tiles ofs (rangesT t ofs) (ofs + t.elems.length) := by
  induction t with
  | leaf xs =>
    intro ofs
    exact ⟨rfl, Nat.le_add_right _ _, rfl⟩
  | node d v l r ihl ihr =>
    intro ofs
    show tiles ofs (rangesT l ofs ++ rangesT r (ofs + l.elems.length)) (ofs + (l.elems ++ r.elems).length)
    rw [List.length_append]
    exact tiles_append (ihl ofs) (by rw [← Nat.add_assoc]; exact ihr (ofs + l.elems.length))

lemma leafRanges_cons_false (nd : PackedNode) (ns : List PackedNode) (h : nd.leaf = false) :
    leafRanges (nd :: ns) = leafRanges ns := by
  unfold leafRanges
  rw [List.filterMap_cons, h]
  rfl

lemma leafRanges_append (u v : List PackedNode) :
    leafRanges (u ++ v) = leafRanges u ++ leafRanges v :=
  List.filterMap_append u v _

lemma leafRanges_flat (t : KDT) : ∀ self ofs,
    leafRanges ((flat t self ofs).map Prod.fst) = rangesT t ofs := by
  induction t with
  | leaf xs =>
    intro self ofs
    rfl
  | node d v l r ihl ihr =>
    intro self ofs
    simp only [flat, List.map_cons, List.map_append]
    rw [leafRanges_cons_false _ _ rfl, leafRanges_append, ihl, ihr]
    rfl

lemma rangesT_sizes (M : Nat) (t : KDT) (hl : ∀ ys ∈ t.leaves, ys.length ≤ M) :
    ∀ ofs, ∀ p ∈ rangesT t ofs, p.1 ≤ p.2 ∧ p.2 - p.1 ≤ M := by
  induction t with
  | leaf xs =>
    intro ofs p hp
    have hp' : p = (ofs, ofs + xs.length) := List.mem_singleton.mp hp
    subst hp'
    have := hl xs (List.mem_singleton.mpr rfl)
    exact ⟨Nat.le_add_right _ _, by omega⟩
  | node d v l r ihl ihr =>
    intro ofs p hp
    have hll : ∀ ys ∈ l.leaves, ys.length ≤ M := fun ys hys =>
      hl ys (List.mem_append.mpr (Or.inl hys))
    have hlr : ∀ ys ∈ r.leaves, ys.length ≤ M := fun ys hys =>
      hl ys (List.mem_append.mpr (Or.inr hys))
    rcases List.mem_append.mp hp with hp | hp
    · exact ihl hll ofs p hp
    · exact ihr hlr _ p hp

/-- C4: for every built tree the leaves' [begin, end) ranges satisfy begin ≤ end and
end − begin ≤ leaf_size, they partition [0, dcount) of the tree's reordered association
list exactly, and the multiset of global indices across the list equals the multiset of
global indices supplied to Build. -/
theorem c4_leaf_ranges_partition (store : List Entry) (leafSize : Nat)
    (rng : List Entry → Nat) (hLS : 1 ≤ leafSize) :
    tiles 0 (leafRanges (KDTree.ofT (buildT leafSize rng store)).nodes) store.length ∧
    (∀ p ∈ leafRanges (KDTree.ofT (buildT leafSize rng store)).nodes,
      p.1 ≤ p.2 ∧ p.2 - p.1 ≤ leafSize) ∧
    List.Perm ((KDTree.ofT (buildT leafSize rng store)).list.map
        (fun a => a.2.global_index))
      (store.map (fun a => a.2.global_index)) := by
  have hnodes : (KDTree.ofT (buildT leafSize rng store)).nodes =
      (flat (buildT leafSize rng store) 0 0).map Prod.fst := rfl
  have hranges : leafRanges (KDTree.ofT (buildT leafSize rng store)).nodes =
      rangesT (buildT leafSize rng store) 0 := by
    rw [hnodes, leafRanges_flat]
  have hlen : (buildT leafSize rng store).elems.length = store.length :=
    (buildT_elems_perm leafSize rng store).length_eq
  refine ⟨?_, ?_, ?_⟩
  · rw [hranges]
    have := rangesT_tiles (buildT leafSize rng store) 0
    rw [hlen] at this
    simpa using this
  · rw [hranges]
    exact rangesT_sizes leafSize (buildT leafSize rng store)
      (buildT_leaves_le leafSize rng hLS store) 0
  · exact (buildT_elems_perm leafSize rng store).map _

/-- Witness for C4 on a concrete two-element store with leaf size 1. -/
theorem c4_leaf_ranges_partition_witness :
    1 ≤ 1 ∧
    (tiles 0 (leafRanges (KDTree.ofT (buildT 1 (fun _ => 0)
        [((fun _ => 0), ⟨0, 0, 0⟩), ((fun _ => 9), ⟨1, 0, 1⟩)])).nodes)
      ([((fun _ : Fin 128 => (0 : Byte)), (⟨0, 0, 0⟩ : DescriptorAssociation)),
        ((fun _ => 9), ⟨1, 0, 1⟩)] : List Entry).length ∧
    (∀ p ∈ leafRanges (KDTree.ofT (buildT 1 (fun _ => 0)
        [((fun _ => 0), ⟨0, 0, 0⟩), ((fun _ => 9), ⟨1, 0, 1⟩)])).nodes,
      p.1 ≤ p.2 ∧ p.2 - p.1 ≤ 1) ∧
    List.Perm ((KDTree.ofT (buildT 1 (fun _ => 0)
        [((fun _ => 0), ⟨0, 0, 0⟩), ((fun _ => 9), ⟨1, 0, 1⟩)])).list.map
        (fun a => a.2.global_index))
      (([((fun _ : Fin 128 => (0 : Byte)), (⟨0, 0, 0⟩ : DescriptorAssociation)),
        ((fun _ => 9), ⟨1, 0, 1⟩)] : List Entry).map (fun a => a.2.global_index))) :=
  ⟨le_refl 1, c4_leaf_ranges_partition
    [((fun _ => 0), ⟨0, 0, 0⟩), ((fun _ => 9), ⟨1, 0, 1⟩)] 1 (fun _ => 0) (le_refl 1)⟩

/-- Default entry used as getD fallback. -/
def dfltEntry : Entry := ((fun _ => 0), ⟨0, 0, 0⟩)

lemma box_node_left (d : Fin 128) (v : Byte) (l r : KDT) :
    BBContainsBB (KDT.node d v l r).box l.box := by
  apply bbox_contains_of_subset
  intro x hx
  show x ∈ (l.elems ++ r.elems).map Prod.fst
  rw [List.map_append]
  exact List.mem_append.mpr (Or.inl hx)

lemma box_node_right (d : Fin 128) (v : Byte) (l r : KDT) :
    BBContainsBB (KDT.node d v l r).box r.box := by
  apply bbox_contains_of_subset
  intro x hx
  show x ∈ (l.elems ++ r.elems).map Prod.fst
  rw [List.map_append]
  exact List.mem_append.mpr (Or.inr hx)

lemma flat_getD_zero (t : KDT) (self ofs : Nat) :
    ((flat t self ofs).getD 0 dfltFlat).2 = t.box := by
  cases t <;> rfl

/-- Box containment along the packed layout: an internal node's stored box contains the
boxes stored for its left child (at n+1) and its right child (at its right link). -/
lemma flat_box_contains (t : KDT) : ∀ self ofs n, n < t.size →
    ((flat t self ofs).getD n dfltFlat).1.leaf = false →
    BBContainsBB ((flat t self ofs).getD n dfltFlat).2
      ((flat t self ofs).getD (n + 1) dfltFlat).2 ∧
    BBContainsBB ((flat t self ofs).getD n dfltFlat).2
      ((flat t self ofs).getD
        (((flat t self ofs).getD n dfltFlat).1.index - self) dfltFlat).2 := by
  induction t with
  | leaf xs =>
    intro self ofs n hn hleaf
    have hn0 : n = 0 := by
      simp only [KDT.size] at hn
      omega
    subst hn0
    simp only [flat, List.getD_cons_zero] at hleaf
    cases hleaf
  | node d v l r ihl ihr =>
    intro self ofs n hn hleaf
    have hlsize := flat_length l (self + 1) ofs
    have hrsize := flat_length r (self + 1 + l.size) (ofs + l.elems.length)
    have hlpos := l.size_pos
    have hrpos := r.size_pos
    cases n with
    | zero =>
      simp only [flat, List.getD_cons_zero]
      constructor
      · rw [List.getD_cons_succ, List.getD_append _ _ _ _ (by omega), flat_getD_zero]
        exact box_node_left d v l r
      · show BBContainsBB (KDT.node d v l r).box
          (((⟨self + 1 + l.size, false, d, v, 0⟩, (KDT.node d v l r).box) ::
            (flat l (self + 1) ofs ++
              flat r (self + 1 + l.size) (ofs + l.elems.length))).getD
            (self + 1 + l.size - self) dfltFlat).2
        have hidx : self + 1 + l.size - self = l.size + 1 := by omega
        rw [hidx, List.getD_cons_succ, List.getD_append_right _ _ _ _ (by omega), hlsize,
          Nat.sub_self, flat_getD_zero]
        exact box_node_right d v l r
    | succ k =>
      simp only [flat, List.getD_cons_succ] at hleaf ⊢
      simp only [KDT.size] at hn
      by_cases hk : k < l.size
      · rw [List.getD_append _ _ _ _ (by omega)] at hleaf ⊢
        set w := (flat l (self + 1) ofs).getD k dfltFlat with hw
        have hbound := flat_index_bound l (self + 1) ofs k hk hleaf
        rw [← hw] at hbound
        have hmain := ihl (self + 1) ofs k hk hleaf
        rw [← hw] at hmain
        have hsucc : k + 1 < l.size := by omega
        rw [List.getD_append _ _ _ _ (by omega)]
        have hshift : w.1.index - self = (w.1.index - (self + 1)) + 1 := by omega
        rw [hshift, List.getD_cons_succ, List.getD_append _ _ _ _ (by omega)]
        exact hmain
      · rw [List.getD_append_right _ _ _ _ (by omega), hlsize] at hleaf ⊢
        set w := (flat r (self + 1 + l.size) (ofs + l.elems.length)).getD
          (k - l.size) dfltFlat with hw
        have hkr : k - l.size < r.size := by omega
        have hbound := flat_index_bound r (self + 1 + l.size) (ofs + l.elems.length)
          (k - l.size) hkr hleaf
        rw [← hw] at hbound
        have hmain := ihr (self + 1 + l.size) (ofs + l.elems.length) (k - l.size) hkr hleaf
        rw [← hw] at hmain
        rw [List.getD_append_right _ _ _ _ (by omega), hlsize]
        have hk1 : k + 1 - l.size = k - l.size + 1 := by omega
        rw [hk1]
        have hshift : w.1.index - self =
            ((w.1.index - (self + 1 + l.size)) + l.size) + 1 := by omega
        rw [hshift, List.getD_cons_succ, List.getD_append_right _ _ _ _ (by omega), hlsize,
          Nat.add_sub_cancel]
        exact hmain

/-- Box coverage at leaves of the packed layout: a leaf node's stored box contains every
descriptor referenced by its [begin, end) association range. -/
lemma flat_leaf_box (t : KDT) : ∀ self ofs n, n < t.size →
    ((flat t self ofs).getD n dfltFlat).1.leaf = true →
    ofs ≤ ((flat t self ofs).getD n dfltFlat).1.index ∧
    ((flat t self ofs).getD n dfltFlat).1.endd ≤ ofs + t.elems.length ∧
    ∀ j, ((flat t self ofs).getD n dfltFlat).1.index ≤ j →
      j < ((flat t self ofs).getD n dfltFlat).1.endd →
      BBContainsDesc ((flat t self ofs).getD n dfltFlat).2
        ((t.elems.getD (j - ofs) dfltEntry).1) := by
  induction t with
  | leaf xs =>
    intro self ofs n hn _hleaf
    have hn0 : n = 0 := by
      simp only [KDT.size] at hn
      omega
    subst hn0
    simp only [flat, List.getD_cons_zero]
    refine ⟨le_refl _, le_refl _, ?_⟩
    intro j hj1 hj2
    have hjlen : j - ofs < xs.length := by omega
    have hmem : xs.getD (j - ofs) dfltEntry ∈ xs := by
      rw [List.getD_eq_getElem xs dfltEntry hjlen]
      exact List.getElem_mem hjlen
    show BBContainsDesc (KDT.leaf xs).box ((xs.getD (j - ofs) dfltEntry).1)
    apply bboxOf_contains_mem
    exact List.mem_map.mpr ⟨_, hmem, rfl⟩
  | node d v l r ihl ihr =>
    intro self ofs n hn hleaf
    have hlsize := flat_length l (self + 1) ofs
    have hrsize := flat_length r (self + 1 + l.size) (ofs + l.elems.length)
    simp only [KDT.size] at hn
    cases n with
    | zero =>
      simp only [flat, List.getD_cons_zero] at hleaf
      cases hleaf
    | succ k =>
      simp only [flat, List.getD_cons_succ] at hleaf ⊢
      by_cases hk : k < l.size
      · rw [List.getD_append _ _ _ _ (by omega)] at hleaf ⊢
        have hmain := ihl (self + 1) ofs k hk hleaf
        refine ⟨hmain.1, by
          have := hmain.2.1
          show _ ≤ ofs + (l.elems ++ r.elems).length
          rw [List.length_append]
          omega, ?_⟩
        intro j hj1 hj2
        have hcov := hmain.2.2 j hj1 hj2
        have hjl : j - ofs < l.elems.length := by
          have h1 := hmain.1
          have h2 := hmain.2.1
          omega
        show BBContainsDesc _ (((l.elems ++ r.elems).getD (j - ofs) dfltEntry).1)
        rw [List.getD_append _ _ _ _ hjl]
        exact hcov
      · rw [List.getD_append_right _ _ _ _ (by omega), hlsize] at hleaf ⊢
        have hkr : k - l.size < r.size := by omega
        have hmain := ihr (self + 1 + l.size) (ofs + l.elems.length) (k - l.size) hkr hleaf
        refine ⟨by omega, by
          have := hmain.2.1
          show _ ≤ ofs + (l.elems ++ r.elems).length
          rw [List.length_append]
          omega, ?_⟩
        intro j hj1 hj2
        have hofs : ofs + l.elems.length ≤ j := le_trans hmain.1 hj1
        have hcov := hmain.2.2 j hj1 hj2
        show BBContainsDesc _ (((l.elems ++ r.elems).getD (j - ofs) dfltEntry).1)
        rw [List.getD_append_right _ _ _ _ (by omega)]
        have : j - ofs - l.elems.length = j - (ofs + l.elems.length) := by omega
        rw [this]
        exact hcov

/-- C5: in every built tree the bounding box stored for an internal node component-wise
contains the boxes of both of its children, and the box stored for a leaf contains every
descriptor referenced by the leaf's association range. -/
theorem c5_bounding_box_containment (store : List Entry) (leafSize : Nat)
    (rng : List Entry → Nat) (n : Nat) :
    ((KDTree.ofT (buildT leafSize rng store)).IsLeaf n = Except.ok false →
      BBContainsBB ((KDTree.ofT (buildT leafSize rng store)).bb.getD n emptyBB)
        ((KDTree.ofT (buildT leafSize rng store)).bb.getD (n + 1) emptyBB) ∧
      BBContainsBB ((KDTree.ofT (buildT leafSize rng store)).bb.getD n emptyBB)
        ((KDTree.ofT (buildT leafSize rng store)).bb.getD
          (((KDTree.ofT (buildT leafSize rng store)).nodes.getD n dfltPacked).index)
          emptyBB)) ∧
    ((KDTree.ofT (buildT leafSize rng store)).IsLeaf n = Except.ok true →
      ∀ j, ((KDTree.ofT (buildT leafSize rng store)).nodes.getD n dfltPacked).index ≤ j →
        j < ((KDTree.ofT (buildT leafSize rng store)).nodes.getD n dfltPacked).endd →
        BBContainsDesc ((KDTree.ofT (buildT leafSize rng store)).bb.getD n emptyBB)
          (((KDTree.ofT (buildT leafSize rng store)).list.getD j dfltEntry).1)) := by
  constructor
  · intro h
    cases hg : (KDTree.ofT (buildT leafSize rng store)).nodes[n]? with
    | none => simp [KDTree.IsLeaf, hg] at h
    | some nd =>
      have hleaf : nd.leaf = false := by
        simpa [KDTree.IsLeaf, hg] using h
      have hn : n < (KDTree.ofT (buildT leafSize rng store)).nodes.length := by
        by_contra hc
        rw [List.getElem?_eq_none (by omega)] at hg
        cases hg
      have hnd : ((flat (buildT leafSize rng store) 0 0).getD n dfltFlat).1 = nd := by
        rw [← ofT_nodes_getD, List.getD_eq_getElem?_getD, hg]
        rfl
      have hsz : n < (buildT leafSize rng store).size := by
        rw [ofT_nodes_length] at hn
        exact hn
      have hbox := flat_box_contains (buildT leafSize rng store) 0 0 n hsz
        (by rw [hnd]; exact hleaf)
      rw [hnd] at hbox
      rw [ofT_bb_getD, ofT_bb_getD, ofT_bb_getD, ofT_nodes_getD, hnd]
      have hz : nd.index - 0 = nd.index := by omega
      rw [hz] at hbox
      exact hbox
  · intro h
    cases hg : (KDTree.ofT (buildT leafSize rng store)).nodes[n]? with
    | none => simp [KDTree.IsLeaf, hg] at h
    | some nd =>
      have hleaf : nd.leaf = true := by
        simpa [KDTree.IsLeaf, hg] using h
      have hn : n < (KDTree.ofT (buildT leafSize rng store)).nodes.length := by
        by_contra hc
        rw [List.getElem?_eq_none (by omega)] at hg
        cases hg
      have hnd : ((flat (buildT leafSize rng store) 0 0).getD n dfltFlat).1 = nd := by
        rw [← ofT_nodes_getD, List.getD_eq_getElem?_getD, hg]
        rfl
      have hsz : n < (buildT leafSize rng store).size := by
        rw [ofT_nodes_length] at hn
        exact hn
      have hlb := flat_leaf_box (buildT leafSize rng store) 0 0 n hsz
        (by rw [hnd]; exact hleaf)
      rw [hnd] at hlb
      intro j hj1 hj2
      rw [ofT_nodes_getD, hnd] at hj1 hj2
      have hcov := hlb.2.2 j hj1 hj2
      have hz : j - 0 = j := by omega
      rw [hz] at hcov
      rw [ofT_bb_getD]
      exact hcov

/-- Witness for C5: the two-element store with leaf size 1 has an internal root at node
0 and a leaf at node 1 with a one-element range. -/
theorem c5_bounding_box_containment_witness :
    ((KDTree.ofT (buildT 1 (fun _ => 0)
        [((fun _ => 0), ⟨0, 0, 0⟩), ((fun _ => 9), ⟨1, 0, 1⟩)])).IsLeaf 0 =
      Except.ok false ∧
     BBContainsBB ((KDTree.ofT (buildT 1 (fun _ => 0)
        [((fun _ => 0), ⟨0, 0, 0⟩), ((fun _ => 9), ⟨1, 0, 1⟩)])).bb.getD 0 emptyBB)
       ((KDTree.ofT (buildT 1 (fun _ => 0)
        [((fun _ => 0), ⟨0, 0, 0⟩), ((fun _ => 9), ⟨1, 0, 1⟩)])).bb.getD 1 emptyBB) ∧
     BBContainsBB ((KDTree.ofT (buildT 1 (fun _ => 0)
        [((fun _ => 0), ⟨0, 0, 0⟩), ((fun _ => 9), ⟨1, 0, 1⟩)])).bb.getD 0 emptyBB)
       ((KDTree.ofT (buildT 1 (fun _ => 0)
        [((fun _ => 0), ⟨0, 0, 0⟩), ((fun _ => 9), ⟨1, 0, 1⟩)])).bb.getD
         (((KDTree.ofT (buildT 1 (fun _ => 0)
           [((fun _ => 0), ⟨0, 0, 0⟩), ((fun _ => 9), ⟨1, 0, 1⟩)])).nodes.getD 0
             dfltPacked).index) emptyBB)) ∧
    ((KDTree.ofT (buildT 1 (fun _ => 0)
        [((fun _ => 0), ⟨0, 0, 0⟩), ((fun _ => 9), ⟨1, 0, 1⟩)])).IsLeaf 1 =
      Except.ok true ∧
     BBContainsDesc ((KDTree.ofT (buildT 1 (fun _ => 0)
        [((fun _ => 0), ⟨0, 0, 0⟩), ((fun _ => 9), ⟨1, 0, 1⟩)])).bb.getD 1 emptyBB)
       (((KDTree.ofT (buildT 1 (fun _ => 0)
        [((fun _ => 0), ⟨0, 0, 0⟩), ((fun _ => 9), ⟨1, 0, 1⟩)])).list.getD
         (((KDTree.ofT (buildT 1 (fun _ => 0)
           [((fun _ => 0), ⟨0, 0, 0⟩), ((fun _ => 9), ⟨1, 0, 1⟩)])).nodes.getD 1
             dfltPacked).index) dfltEntry).1)) :=
  ⟨⟨rfl,
    (c5_bounding_box_containment
      [((fun _ => 0), ⟨0, 0, 0⟩), ((fun _ => 9), ⟨1, 0, 1⟩)] 1 (fun _ => 0) 0).1 rfl⟩,
   ⟨rfl,
    (c5_bounding_box_containment
      [((fun _ => 0), ⟨0, 0, 0⟩), ((fun _ => 9), ⟨1, 0, 1⟩)] 1 (fun _ => 0) 1).2 rfl
      _ (le_refl _) (by decide)⟩⟩

/-- Modelled from the spec: KDTree::Build(descriptors, image_indexes, dcount, leaf_size)
(declared at KDTree.h line 71): it fails, returning no tree, when dcount == 0 or
leaf_size == 0; otherwise it constructs one tree over the store. -/
def KDTree.Build (store : List Entry) (leafSize : Nat) (rng : List Entry → Nat) :
    Option KDTree :=
  if store.length = 0 ∨ leafSize = 0 then none
  else some (KDTree.ofT (buildT leafSize rng store))

/-- C7: Build fails (returns no tree) when the descriptor count or the leaf size is
zero, and in exactly that case no tree is constructed. -/
theorem c7_build_rejects_degenerate_parameters (store : List Entry) (leafSize : Nat)
    (rng : List Entry → Nat) :
    (store.length = 0 ∨ leafSize = 0 → KDTree.Build store leafSize rng = none) ∧
    (¬(store.length = 0 ∨ leafSize = 0) →
      KDTree.Build store leafSize rng = some (KDTree.ofT (buildT leafSize rng store))) := by
  constructor
  · intro h
    unfold KDTree.Build
    rw [if_pos h]
  · intro h
    unfold KDTree.Build
    rw [if_neg h]

/-- Witness for C7: an empty store is rejected; a two-element store with leaf size 1 is
built. -/
theorem c7_build_rejects_degenerate_parameters_witness :
    (([] : List Entry).length = 0 ∨ (1 : Nat) = 0) ∧
    KDTree.Build [] 1 (fun _ => 0) = none ∧
    ¬((([((fun _ => 0), ⟨0, 0, 0⟩), ((fun _ => 9), ⟨1, 0, 1⟩)] : List Entry)).length = 0 ∨
      (1 : Nat) = 0) ∧
    KDTree.Build [((fun _ => 0), ⟨0, 0, 0⟩), ((fun _ => 9), ⟨1, 0, 1⟩)] 1 (fun _ => 0) =
      some (KDTree.ofT (buildT 1 (fun _ => 0)
        [((fun _ => 0), ⟨0, 0, 0⟩), ((fun _ => 9), ⟨1, 0, 1⟩)])) :=
  ⟨Or.inl rfl,
   (c7_build_rejects_degenerate_parameters [] 1 (fun _ => 0)).1 (Or.inl rfl),
   by decide,
   (c7_build_rejects_degenerate_parameters
     [((fun _ => 0), ⟨0, 0, 0⟩), ((fun _ => 9), ⟨1, 0, 1⟩)] 1 (fun _ => 0)).2 (by decide)⟩

/-- The squared L2 distance from a query to a store entry, the primary ranking metric. -/
def dq (q : U8Descriptor) (a : Entry) : Nat := L2DistanceSquared q a.1

/-- Best and second-best candidate of a 2NN search; none is the sentinel "no match"
slot, which compares as maximal distance. -/
structure TwoNN where
  best : Option (Nat × Entry)
  second : Option (Nat × Entry)
deriving DecidableEq

/-- The initial 2NN state: no match in either slot. -/
def INITNN : TwoNN := ⟨none, none⟩

/-- A candidate distance strictly beats a slot (an empty slot holds maximal distance). -/
def beats (d : Nat) : Option (Nat × Entry) → Bool
  | none => true
  | some p => decide (d < p.1)

/-- Whether a candidate carries the association already held as best. -/
def sameBestAssoc (s : TwoNN) (a : Entry) : Bool :=
  match s.best with
  | none => false
  | some p => decide (p.2.2 = a.2)

/-- Modelled from the spec: update the best/second-best pair with one scanned candidate:
strict-less comparison, first found wins exact ties; the result is the best and
second-best matching association, so a candidate carrying the association already held
as best is not re-inserted into the second slot. -/
def upd2 (q : U8Descriptor) (s : TwoNN) (a : Entry) : TwoNN :=
  if sameBestAssoc s a then s
  else if beats (dq q a) s.best then ⟨some (dq q a, a), s.best⟩
  else if beats (dq q a) s.second then ⟨s.best, some (dq q a, a)⟩
  else s

/-- Modelled from the spec: the brute-force reference — fold the 2NN update over the
indexed descriptor store in order. -/
def linearScan2NN (store : List Entry) (q : U8Descriptor) : TwoNN :=
  store.foldl (upd2 q) INITNN

/-- The pruning lower bound of a pending subtree for a query: the box distance to the
subtree's bounding box. -/
def boxDistLB (q : U8Descriptor) (t : KDT) : Nat := L2DistanceSquaredBox q t.box

/-- Pop a pending subtree with minimal lower-bound key from the priority list. -/
def popMin : List (Nat × KDT) → Option ((Nat × KDT) × List (Nat × KDT))
  | [] => none
  | x :: xs =>
    match popMin xs with
    | none => some (x, [])
    | some (m, rest) => if x.1 ≤ m.1 then some (x, xs) else some (m, x :: rest)

/-- Modelled from the spec: descend a subtree to a leaf; at an internal node visit the
child matching the query's split-dimension value first and push the sibling subtree
keyed by its lower-bound distance. -/
def descendT (q : U8Descriptor) : KDT → List (Nat × KDT) → List Entry × List (Nat × KDT)
  | .leaf xs, pq => (xs, pq)
  | .node d v l r, pq =>
    if q d ≤ v then descendT q l ((boxDistLB q r, r) :: pq)
    else descendT q r ((boxDistLB q l, l) :: pq)

/-- Modelled from the spec: best-first, budget-bounded search: repeatedly pop the
pending subtree with the lowest lower bound across all trees, descend it to a leaf,
scan the leaf against the query, and charge one unit of the leaf-visit budget, until
the budget is exhausted or no subtree is pending. -/
def searchLoop (q : U8Descriptor) : Nat → List (Nat × KDT) → TwoNN → TwoNN
  | 0, _, s => s
  | b + 1, pq, s =>
    match popMin pq with
    | none => s
    | some (m, pq2) =>
      let st := descendT q m.2 pq2
      searchLoop q b st.2 (st.1.foldl (upd2 q) s)

/-- Modelled from the spec: the forest builder — tree_count independently randomized
trees over the same store (Build overload, KDTree.h line 184); each tree gets its own
random stream. -/
def buildForest (store : List Entry) (leafSize : Nat)
    (rngs : List (List Entry → Nat)) : List KDT :=
  rngs.map (fun rng => buildT leafSize rng store)

/-- Total leaf count of the pending subtrees. -/
def totalLeafPQ (pq : List (Nat × KDT)) : Nat := (pq.map (fun p => p.2.leafCount)).sum

/-- Total leaf count over all trees of a forest. -/
def totalLeaves (trees : List KDT) : Nat := (trees.map KDT.leafCount).sum

/-- All elements below the pending subtrees. -/
def elemsPQ (pq : List (Nat × KDT)) : List Entry := (pq.map (fun p => p.2.elems)).flatten

/-- Modelled from the spec: answer one query over a forest: best-first search across all
trees starting from every root, within the leaf-visit budget; returns the best and
second-best associations, none being the sentinel "no match". -/
def query2NNone (trees : List KDT) (maxCandidates : Nat) (q : U8Descriptor) :
    Option DescriptorAssociation × Option DescriptorAssociation :=
  let s := searchLoop q maxCandidates (trees.map (fun t => (boxDistLB q t, t))) INITNN
  (s.best.map (fun p => p.2.2), s.second.map (fun p => p.2.2))

/-- Modelled from the spec: Query2NN (declared at KDTree.h line 190): for each query
index, the query's best and second-best association found within the budget. -/
def Query2NN (trees : List KDT) (maxCandidates : Nat) (queries : List U8Descriptor) :
    List (Nat × (Option DescriptorAssociation × Option DescriptorAssociation)) :=
  (queries.map (fun q => query2NNone trees maxCandidates q)).enum

lemma popMin_cons_ne_none (x : Nat × KDT) (xs : List (Nat × KDT)) :
    popMin (x :: xs) ≠ none := by
  unfold popMin
  cases popMin xs with
  | none => simp
  | some m =>
    obtain ⟨m, rest⟩ := m
    by_cases h : x.1 ≤ m.1 <;> simp [h]

lemma popMin_perm : ∀ (pq : List (Nat × KDT)) m rest, popMin pq = some (m, rest) →
    List.Perm pq (m :: rest) := by
  intro pq
  induction pq with
  | nil => intro m rest h; cases h
  | cons x xs ih =>
    intro m rest h
    unfold popMin at h
    cases hp : popMin xs with
    | none =>
      rw [hp] at h
      dsimp only at h
      have hxs : xs = [] := by
        cases xs with
        | nil => rfl
        | cons y ys => exact absurd hp (popMin_cons_ne_none y ys)
      subst hxs
      cases h
      exact List.Perm.refl _
    | some pr =>
      obtain ⟨m2, rest2⟩ := pr
      rw [hp] at h
      dsimp only at h
      by_cases hle : x.1 ≤ m2.1
      · rw [if_pos hle] at h
        cases h
        exact List.Perm.refl _
      · rw [if_neg hle] at h
        cases h
        exact List.Perm.trans ((ih _ _ hp).cons x) (List.Perm.swap _ x _)

lemma elemsPQ_cons (p : Nat × KDT) (pq : List (Nat × KDT)) :
    elemsPQ (p :: pq) = p.2.elems ++ elemsPQ pq := rfl

lemma totalLeafPQ_cons (p : Nat × KDT) (pq : List (Nat × KDT)) :
    totalLeafPQ (p :: pq) = p.2.leafCount + totalLeafPQ pq := by
  unfold totalLeafPQ
  rw [List.map_cons, List.sum_cons]

lemma elemsPQ_perm {pq pq' : List (Nat × KDT)} (h : List.Perm pq pq') :
    List.Perm (elemsPQ pq) (elemsPQ pq') := by
  unfold elemsPQ
  exact (h.map (fun p => p.2.elems)).flatten

lemma totalLeafPQ_perm {pq pq' : List (Nat × KDT)} (h : List.Perm pq pq') :
    totalLeafPQ pq = totalLeafPQ pq' := by
  unfold totalLeafPQ
  exact (h.map (fun p => p.2.leafCount)).sum_eq

/-- Descending preserves the pending multiset of elements and trades exactly one leaf
for the scanned leaf's elements. -/
lemma descendT_spec (q : U8Descriptor) : ∀ (t : KDT) (pq : List (Nat × KDT)),
    List.Perm ((descendT q t pq).1 ++ elemsPQ (descendT q t pq).2) (t.elems ++ elemsPQ pq) ∧
    totalLeafPQ (descendT q t pq).2 + 1 = t.leafCount + totalLeafPQ pq := by
  intro t
  induction t with
  | leaf xs =>
    intro pq
    exact ⟨List.Perm.refl _, by show totalLeafPQ pq + 1 = 1 + totalLeafPQ pq; omega⟩
  | node d v l r ihl ihr =>
    intro pq
    unfold descendT
    by_cases h : q d ≤ v
    · rw [if_pos h]
      have hmain := ihl ((boxDistLB q r, r) :: pq)
      constructor
      · refine hmain.1.trans ?_
        rw [elemsPQ_cons]
        show List.Perm (l.elems ++ (r.elems ++ elemsPQ pq))
          ((l.elems ++ r.elems) ++ elemsPQ pq)
        rw [List.append_assoc]
      · have := hmain.2
        rw [totalLeafPQ_cons] at this
        dsimp only at this
        show _ + 1 = l.leafCount + r.leafCount + totalLeafPQ pq
        omega
    · rw [if_neg h]
      have hmain := ihr ((boxDistLB q l, l) :: pq)
      constructor
      · refine hmain.1.trans ?_
        rw [elemsPQ_cons]
        show List.Perm (r.elems ++ (l.elems ++ elemsPQ pq))
          ((l.elems ++ r.elems) ++ elemsPQ pq)
        refine List.Perm.trans ?_
          (List.Perm.append_right (elemsPQ pq) (@List.perm_append_comm _ r.elems l.elems))
        rw [List.append_assoc]
      · have := hmain.2
        rw [totalLeafPQ_cons] at this
        dsimp only at this
        show _ + 1 = l.leafCount + r.leafCount + totalLeafPQ pq
        omega

/-- With a budget of at least the total pending leaf count, the search scans exactly the
pending elements (in some order) and folds the 2NN update over them. -/
lemma searchLoop_exhaustive (q : U8Descriptor) : ∀ (b : Nat) (pq : List (Nat × KDT))
    (s : TwoNN), totalLeafPQ pq ≤ b →
    ∃ l, List.Perm l (elemsPQ pq) ∧ searchLoop q b pq s = l.foldl (upd2 q) s := by
  intro b
  induction b with
  | zero =>
    intro pq s hb
    have hpq : pq = [] := by
      cases pq with
      | nil => rfl
      | cons x xs =>
        exfalso
        have h1 := x.2.leafCount_pos
        have h2 := totalLeafPQ_cons x xs
        omega
    subst hpq
    exact ⟨[], List.Perm.refl _, rfl⟩
  | succ b ih =>
    intro pq s hb
    cases hpop : popMin pq with
    | none =>
      have hpq : pq = [] := by
        cases pq with
        | nil => rfl
        | cons x xs => exact absurd hpop (popMin_cons_ne_none x xs)
      subst hpq
      exact ⟨[], List.Perm.refl _, rfl⟩
    | some pr =>
      obtain ⟨m, pq2⟩ := pr
      have hperm := popMin_perm pq m pq2 hpop
      have hdesc := descendT_spec q m.2 pq2
      have hcnt : totalLeafPQ pq = m.2.leafCount + totalLeafPQ pq2 := by
        rw [totalLeafPQ_perm hperm, totalLeafPQ_cons]
      have hbudget2 : totalLeafPQ (descendT q m.2 pq2).2 ≤ b := by
        have := hdesc.2
        omega
      obtain ⟨l2, hl2perm, hl2eq⟩ :=
        ih (descendT q m.2 pq2).2 (((descendT q m.2 pq2).1).foldl (upd2 q) s) hbudget2
      refine ⟨(descendT q m.2 pq2).1 ++ l2, ?_, ?_⟩
      · refine List.Perm.trans (List.Perm.append_left _ hl2perm) ?_
        refine List.Perm.trans hdesc.1 ?_
        rw [← elemsPQ_cons]
        exact (elemsPQ_perm hperm).symm
      · show searchLoop q (b + 1) pq s = _
        rw [List.foldl_append, ← hl2eq]
        simp only [searchLoop, hpop]

/-- Characterization of a 2NN state after scanning a list of candidates drawn from a
store with pairwise-distinct distances and associations: the best slot holds the strict
nearest of the scanned elements, the second slot holds the strict second nearest with a
different association. -/
def Char2 (q : U8Descriptor) (l : List Entry) (s : TwoNN) : Prop :=
  (s.best = none ∧ s.second = none ∧ l = []) ∨
  (∃ a, s.best = some (dq q a, a) ∧ s.second = none ∧ a ∈ l ∧ ∀ b ∈ l, b = a) ∨
  (∃ a c, s.best = some (dq q a, a) ∧ s.second = some (dq q c, c) ∧
    a ∈ l ∧ c ∈ l ∧ c ≠ a ∧
    (∀ b ∈ l, b ≠ a → dq q a < dq q b) ∧
    (∀ b ∈ l, b ≠ a → b ≠ c → dq q c < dq q b))

/-- One update step preserves the 2NN characterization. -/
lemma char2_step (q : U8Descriptor) (S l : List Entry) (a : Entry) (s : TwoNN)
    (hdist : ∀ x ∈ S, ∀ y ∈ S, dq q x = dq q y → x = y)
    (hassoc : ∀ x ∈ S, ∀ y ∈ S, x.2 = y.2 → x = y)
    (hl : ∀ x ∈ l, x ∈ S) (ha : a ∈ S)
    (h : Char2 q l s) : Char2 q (l ++ [a]) (upd2 q s a) := by
  have hmema : a ∈ l ++ [a] := List.mem_append.mpr (Or.inr (List.mem_singleton.mpr rfl))
  rcases h with ⟨hb, hs, hl0⟩ |
    ⟨x, hb, hs, hxl, hall⟩ |
    ⟨x, c, hb, hs, hxl, hcl, hcx, hminx, hminc⟩
  · subst hl0
    have hupd : upd2 q s a = ⟨some (dq q a, a), none⟩ := by
      simp [upd2, sameBestAssoc, beats, hb, hs]
    rw [hupd]
    refine Or.inr (Or.inl ⟨a, rfl, rfl, hmema, ?_⟩)
    intro b hbmem
    simpa using hbmem
  · have hxS := hl x hxl
    by_cases hsame : x.2 = a.2
    · have hax : a = x := hassoc a ha x hxS hsame.symm
      have hupd : upd2 q s a = s := by
        simp [upd2, sameBestAssoc, hb, hsame]
      rw [hupd]
      refine Or.inr (Or.inl ⟨x, hb, hs, List.mem_append.mpr (Or.inl hxl), ?_⟩)
      intro b hbmem
      rcases List.mem_append.mp hbmem with hbm | hbm
      · exact hall b hbm
      · rw [List.mem_singleton.mp hbm, hax]
    · have hax : a ≠ x := fun hEq => hsame (by rw [hEq])
      have hdax : dq q a ≠ dq q x := fun hEq => hax (hdist a ha x hxS hEq)
      by_cases hlt : dq q a < dq q x
      · have hupd : upd2 q s a = ⟨some (dq q a, a), some (dq q x, x)⟩ := by
          simp [upd2, sameBestAssoc, beats, hb, hs, hsame, hlt]
        rw [hupd]
        refine Or.inr (Or.inr ⟨a, x, rfl, rfl, hmema,
          List.mem_append.mpr (Or.inl hxl), Ne.symm hax, ?_, ?_⟩)
        · intro b hbmem hbna
          rcases List.mem_append.mp hbmem with hbm | hbm
          · rw [hall b hbm]
            exact hlt
          · exact absurd (List.mem_singleton.mp hbm) hbna
        · intro b hbmem hbna hbnx
          rcases List.mem_append.mp hbmem with hbm | hbm
          · exact absurd (hall b hbm) hbnx
          · exact absurd (List.mem_singleton.mp hbm) hbna
      · have hgt : dq q x < dq q a := by omega
        have hupd : upd2 q s a = ⟨some (dq q x, x), some (dq q a, a)⟩ := by
          simp [upd2, sameBestAssoc, beats, hb, hs, hsame, hlt]
        rw [hupd]
        refine Or.inr (Or.inr ⟨x, a, rfl, rfl,
          List.mem_append.mpr (Or.inl hxl), hmema, hax, ?_, ?_⟩)
        · intro b hbmem hbnx
          rcases List.mem_append.mp hbmem with hbm | hbm
          · exact absurd (hall b hbm) hbnx
          · rw [List.mem_singleton.mp hbm]
            exact hgt
        · intro b hbmem hbnx hbna
          rcases List.mem_append.mp hbmem with hbm | hbm
          · exact absurd (hall b hbm) hbnx
          · exact absurd (List.mem_singleton.mp hbm) hbna
  · have hxS := hl x hxl
    have hcS := hl c hcl
    have hd1c : dq q x < dq q c := hminx c hcl hcx
    by_cases hsame : x.2 = a.2
    · have hax : a = x := hassoc a ha x hxS hsame.symm
      have hupd : upd2 q s a = s := by
        simp [upd2, sameBestAssoc, hb, hsame]
      rw [hupd]
      refine Or.inr (Or.inr ⟨x, c, hb, hs, List.mem_append.mpr (Or.inl hxl),
        List.mem_append.mpr (Or.inl hcl), hcx, ?_, ?_⟩)
      · intro b hbmem hbnx
        rcases List.mem_append.mp hbmem with hbm | hbm
        · exact hminx b hbm hbnx
        · rw [List.mem_singleton.mp hbm, hax] at hbnx
          exact absurd rfl hbnx
      · intro b hbmem hbnx hbnc
        rcases List.mem_append.mp hbmem with hbm | hbm
        · exact hminc b hbm hbnx hbnc
        · rw [List.mem_singleton.mp hbm, hax] at hbnx
          exact absurd rfl hbnx
    · have hax : a ≠ x := fun hEq => hsame (by rw [hEq])
      have hdax : dq q a ≠ dq q x := fun hEq => hax (hdist a ha x hxS hEq)
      by_cases hac : a = c
      · have hnlt1 : ¬ dq q a < dq q x := by
          rw [hac]
          omega
        have hnlt2 : ¬ dq q a < dq q c := by
          rw [hac]
          omega
        have hupd : upd2 q s a = s := by
          simp [upd2, sameBestAssoc, beats, hb, hs, hsame, hnlt1, hnlt2]
        rw [hupd]
        refine Or.inr (Or.inr ⟨x, c, hb, hs, List.mem_append.mpr (Or.inl hxl),
          List.mem_append.mpr (Or.inl hcl), hcx, ?_, ?_⟩)
        · intro b hbmem hbnx
          rcases List.mem_append.mp hbmem with hbm | hbm
          · exact hminx b hbm hbnx
          · rw [List.mem_singleton.mp hbm, hac]
            exact hd1c
        · intro b hbmem hbnx hbnc
          rcases List.mem_append.mp hbmem with hbm | hbm
          · exact hminc b hbm hbnx hbnc
          · rw [List.mem_singleton.mp hbm] at hbnc
            exact absurd hac hbnc
      · have hdac : dq q a ≠ dq q c := fun hEq => hac (hdist a ha c hcS hEq)
        by_cases hlt : dq q a < dq q x
        · have hupd : upd2 q s a = ⟨some (dq q a, a), some (dq q x, x)⟩ := by
            simp [upd2, sameBestAssoc, beats, hb, hs, hsame, hlt]
          rw [hupd]
          refine Or.inr (Or.inr ⟨a, x, rfl, rfl, hmema,
            List.mem_append.mpr (Or.inl hxl), Ne.symm hax, ?_, ?_⟩)
          · intro b hbmem hbna
            rcases List.mem_append.mp hbmem with hbm | hbm
            · by_cases hbx : b = x
              · rw [hbx]
                exact hlt
              · exact hlt.trans (hminx b hbm hbx)
            · exact absurd (List.mem_singleton.mp hbm) hbna
          · intro b hbmem hbna hbnx
            rcases List.mem_append.mp hbmem with hbm | hbm
            · exact hminx b hbm hbnx
            · exact absurd (List.mem_singleton.mp hbm) hbna
        · by_cases hlt2 : dq q a < dq q c
          · have hgtx : dq q x < dq q a := by omega
            have hupd : upd2 q s a = ⟨some (dq q x, x), some (dq q a, a)⟩ := by
              simp [upd2, sameBestAssoc, beats, hb, hs, hsame, hlt, hlt2]
            rw [hupd]
            refine Or.inr (Or.inr ⟨x, a, rfl, rfl,
              List.mem_append.mpr (Or.inl hxl), hmema, hax, ?_, ?_⟩)
            · intro b hbmem hbnx
              rcases List.mem_append.mp hbmem with hbm | hbm
              · exact hminx b hbm hbnx
              · rw [List.mem_singleton.mp hbm]
                exact hgtx
            · intro b hbmem hbnx hbna
              rcases List.mem_append.mp hbmem with hbm | hbm
              · by_cases hbc : b = c
                · rw [hbc]
                  exact hlt2
                · exact hlt2.trans (hminc b hbm hbnx hbc)
              · exact absurd (List.mem_singleton.mp hbm) hbna
          · have hgtc : dq q c < dq q a := by omega
            have hupd : upd2 q s a = s := by
              simp [upd2, sameBestAssoc, beats, hb, hs, hsame, hlt, hlt2]
            rw [hupd]
            refine Or.inr (Or.inr ⟨x, c, hb, hs, List.mem_append.mpr (Or.inl hxl),
              List.mem_append.mpr (Or.inl hcl), hcx, ?_, ?_⟩)
            · intro b hbmem hbnx
              rcases List.mem_append.mp hbmem with hbm | hbm
              · exact hminx b hbm hbnx
              · rw [List.mem_singleton.mp hbm]
                exact hd1c.trans hgtc
            · intro b hbmem hbnx hbnc
              rcases List.mem_append.mp hbmem with hbm | hbm
              · exact hminc b hbm hbnx hbnc
              · rw [List.mem_singleton.mp hbm]
                exact hgtc

/-- Two states characterized against lists with the same members are equal. -/
lemma char2_unique (q : U8Descriptor) {l l' : List Entry} {s s' : TwoNN}
    (hmem : ∀ x, x ∈ l ↔ x ∈ l')
    (h : Char2 q l s) (h' : Char2 q l' s') : s = s' := by
  obtain ⟨sb, ss⟩ := s
  obtain ⟨sb', ss'⟩ := s'
  rcases h with ⟨hb, hs, hl0⟩ |
    ⟨x, hb, hs, hxl, hall⟩ |
    ⟨x, c, hb, hs, hxl, hcl, hcx, hminx, hminc⟩ <;>
  rcases h' with ⟨hb', hs', hl0'⟩ |
    ⟨x', hb', hs', hxl', hall'⟩ |
    ⟨x', c', hb', hs', hxl', hcl', hcx', hminx', hminc'⟩
  · simp only at hb hs hb' hs'
    rw [hb, hs, hb', hs']
  · exfalso
    have := (hmem x').mpr hxl'
    rw [hl0] at this
    cases this
  · exfalso
    have := (hmem x').mpr hxl'
    rw [hl0] at this
    cases this
  · exfalso
    have := (hmem x).mp hxl
    rw [hl0'] at this
    cases this
  · have hx : x = x' := by
      have h1 : x ∈ l' := (hmem x).mp hxl
      exact (hall' x h1).symm ▸ rfl
    simp only at hb hs hb' hs'
    rw [hb, hs, hb', hs', hx]
  · exfalso
    have h1 : x' ∈ l := (hmem x').mpr hxl'
    have h2 : c' ∈ l := (hmem c').mpr hcl'
    have h3 := hall x' h1
    have h4 := hall c' h2
    exact hcx' (h4.trans h3.symm)
  · exfalso
    have := (hmem x).mp hxl
    rw [hl0'] at this
    cases this
  · exfalso
    have h1 : x ∈ l' := (hmem x).mp hxl
    have h2 : c ∈ l' := (hmem c).mp hcl
    have h3 := hall' x h1
    have h4 := hall' c h2
    exact hcx (h4.trans h3.symm)
  · have hx : x = x' := by
      by_contra hne
      have h1 : x' ∈ l := (hmem x').mpr hxl'
      have h2 : x ∈ l' := (hmem x).mp hxl
      have h3 := hminx x' h1 (fun hEq => hne hEq.symm)
      have h4 := hminx' x h2 hne
      omega
    subst hx
    have hc : c = c' := by
      by_contra hne
      have h1 : c' ∈ l := (hmem c').mpr hcl'
      have h2 : c ∈ l' := (hmem c).mp hcl
      have h3 := hminc c' h1 hcx' (fun hEq => hne hEq.symm)
      have h4 := hminc' c h2 hcx hne
      omega
    subst hc
    simp only at hb hs hb' hs'
    rw [hb, hs, hb', hs']

/-- Folding the update over any list of store elements yields a characterized state. -/
lemma foldl_upd2_char (q : U8Descriptor) (S : List Entry)
    (hdist : ∀ x ∈ S, ∀ y ∈ S, dq q x = dq q y → x = y)
    (hassoc : ∀ x ∈ S, ∀ y ∈ S, x.2 = y.2 → x = y) :
    ∀ l, (∀ x ∈ l, x ∈ S) → Char2 q l (l.foldl (upd2 q) INITNN) := by
  intro l
  induction l using List.reverseRecOn with
  | nil => intro _; exact Or.inl ⟨rfl, rfl, rfl⟩
  | append_singleton l a ih =>
    intro hsub
    rw [List.foldl_append]
    show Char2 q (l ++ [a]) (upd2 q (l.foldl (upd2 q) INITNN) a)
    refine char2_step q S l a _ hdist hassoc
      (fun x hx => hsub x (List.mem_append.mpr (Or.inl hx)))
      (hsub a (List.mem_append.mpr (Or.inr (List.mem_singleton.mpr rfl))))
      (ih (fun x hx => hsub x (List.mem_append.mpr (Or.inl hx))))

lemma elemsPQ_forest (q : U8Descriptor) (trees : List KDT) :
    elemsPQ (trees.map (fun t => (boxDistLB q t, t))) = (trees.map KDT.elems).flatten := by
  unfold elemsPQ
  rw [List.map_map]
  rfl

lemma totalLeafPQ_forest (q : U8Descriptor) (trees : List KDT) :
    totalLeafPQ (trees.map (fun t => (boxDistLB q t, t))) = totalLeaves trees := by
  unfold totalLeafPQ totalLeaves
  rw [List.map_map]
  rfl

lemma mem_forest_iff (store : List Entry) (leafSize : Nat)
    (rngs : List (List Entry → Nat)) (htrees : rngs ≠ []) (x : Entry) :
    x ∈ ((buildForest store leafSize rngs).map KDT.elems).flatten ↔ x ∈ store := by
  rw [List.mem_flatten]
  constructor
  · rintro ⟨lst, hlst, hx⟩
    rcases List.mem_map.mp hlst with ⟨t, ht, rfl⟩
    rcases List.mem_map.mp ht with ⟨rng, _hrng, rfl⟩
    exact (buildT_elems_perm leafSize rng store).mem_iff.mp hx
  · intro hx
    obtain ⟨rng, hrng⟩ : ∃ rng, rng ∈ rngs := by
      cases rngs with
      | nil => exact absurd rfl htrees
      | cons r rs => exact ⟨r, List.mem_cons_self r rs⟩
    refine ⟨(buildT leafSize rng store).elems, ?_, ?_⟩
    · exact List.mem_map.mpr ⟨buildT leafSize rng store,
        List.mem_map.mpr ⟨rng, hrng, rfl⟩, rfl⟩
    · exact (buildT_elems_perm leafSize rng store).mem_iff.mpr hx

/-- A single query at full budget equals the linear scan of the store. -/
lemma query2NNone_eq_linear (store : List Entry) (leafSize : Nat)
    (rngs : List (List Entry → Nat)) (q : U8Descriptor) (budget : Nat)
    (htrees : rngs ≠ [])
    (hbudget : totalLeaves (buildForest store leafSize rngs) ≤ budget)
    (hdist : ∀ x ∈ store, ∀ y ∈ store, dq q x = dq q y → x = y)
    (hassoc : ∀ x ∈ store, ∀ y ∈ store, x.2 = y.2 → x = y) :
    query2NNone (buildForest store leafSize rngs) budget q =
      ((linearScan2NN store q).best.map (fun p => p.2.2),
       (linearScan2NN store q).second.map (fun p => p.2.2)) := by
  have hcount : totalLeafPQ ((buildForest store leafSize rngs).map
      (fun t => (boxDistLB q t, t))) ≤ budget := by
    rw [totalLeafPQ_forest]
    exact hbudget
  obtain ⟨l, hlperm, hleq⟩ := searchLoop_exhaustive q budget _ INITNN hcount
  have hmem : ∀ x, x ∈ l ↔ x ∈ store := by
    intro x
    rw [hlperm.mem_iff, elemsPQ_forest]
    exact mem_forest_iff store leafSize rngs htrees x
  have hchar1 : Char2 q l (l.foldl (upd2 q) INITNN) :=
    foldl_upd2_char q store hdist hassoc l (fun x hx => (hmem x).mp hx)
  have hchar2 : Char2 q store (linearScan2NN store q) :=
    foldl_upd2_char q store hdist hassoc store (fun x hx => hx)
  have hstate : searchLoop q budget ((buildForest store leafSize rngs).map
      (fun t => (boxDistLB q t, t))) INITNN = linearScan2NN store q := by
    rw [hleq]
    exact char2_unique q hmem hchar1 hchar2
  unfold query2NNone
  rw [hstate]

/-- C1: when the search budget covers the total number of leaves over all trees of the
forest, Query2NN returns, for every query, exactly the nearest and second-nearest
associations that a linear scan over the indexed descriptor store finds under the
squared L2 metric (stated for a nonempty forest and a store with pairwise-distinct
query distances and associations, so the 2NN pair is uniquely determined). -/
theorem c1_query2NN_bruteforce_equivalence (store : List Entry) (leafSize : Nat)
    (rngs : List (List Entry → Nat)) (budget : Nat) (queries : List U8Descriptor)
    (htrees : rngs ≠ [])
    (hbudget : totalLeaves (buildForest store leafSize rngs) ≤ budget)
    (hdist : ∀ q ∈ queries, ∀ x ∈ store, ∀ y ∈ store, dq q x = dq q y → x = y)
    (hassoc : ∀ x ∈ store, ∀ y ∈ store, x.2 = y.2 → x = y) :
    Query2NN (buildForest store leafSize rngs) budget queries =
      (queries.map (fun q =>
        ((linearScan2NN store q).best.map (fun p => p.2.2),
         (linearScan2NN store q).second.map (fun p => p.2.2)))).enum := by
  unfold Query2NN
  congr 1
  apply List.map_congr_left
  intro q hq
  exact query2NNone_eq_linear store leafSize rngs q budget htrees hbudget
    (hdist q hq) hassoc

/-- A concrete store entry at the origin. -/
def wE0 : Entry := ((fun _ => 0), ⟨0, 0, 0⟩)

/-- A concrete store entry with every byte 3. -/
def wE1 : Entry := ((fun _ => 3), ⟨1, 0, 1⟩)

/-- A concrete two-entry store with distinct distances and associations. -/
def wStore : List Entry := [wE0, wE1]

/-- A concrete query descriptor. -/
def wQuery : U8Descriptor := fun _ => 0

/-- A concrete one-tree random stream list. -/
def wRngs : List (List Entry → Nat) := [fun _ => 0]

lemma sumOver_const (c : Nat) : sumOver (fun _ => c) = 128 * c := by
  unfold sumOver dims128
  rw [List.map_const', List.sum_replicate, List.length_finRange, smul_eq_mul]

lemma dq_wE0 : dq wQuery wE0 = 0 := by
  show sumOver (fun _ => sqDiff 0 0) = 0
  exact sumOver_eq_zero (fun _ => rfl)

lemma dq_wE1 : dq wQuery wE1 = 1152 := by
  show sumOver (fun _ => sqDiff 0 3) = 1152
  rw [show (fun _ : Fin 128 => sqDiff 0 3) = (fun _ : Fin 128 => 9) from funext (fun _ => rfl)]
  rw [sumOver_const]

lemma wStore_dist_inj :
    ∀ q ∈ [wQuery], ∀ x ∈ wStore, ∀ y ∈ wStore, dq q x = dq q y → x = y := by
  intro q hq x hx y hy hEq
  rw [List.mem_singleton] at hq
  subst hq
  have hx2 : x = wE0 ∨ x = wE1 := by simpa [wStore] using hx
  have hy2 : y = wE0 ∨ y = wE1 := by simpa [wStore] using hy
  rcases hx2 with rfl | rfl <;> rcases hy2 with rfl | rfl
  · rfl
  · rw [dq_wE0, dq_wE1] at hEq
    omega
  · rw [dq_wE0, dq_wE1] at hEq
    omega
  · rfl

/-- Witness for C1: a one-tree forest over the two-entry store, with budget equal to the
single leaf, answers the query exactly as the linear scan. -/
theorem c1_query2NN_bruteforce_equivalence_witness :
    (wRngs ≠ [] ∧
     totalLeaves (buildForest wStore 2 wRngs) ≤ 1 ∧
     (∀ q ∈ [wQuery], ∀ x ∈ wStore, ∀ y ∈ wStore, dq q x = dq q y → x = y) ∧
     (∀ x ∈ wStore, ∀ y ∈ wStore, x.2 = y.2 → x = y)) ∧
    Query2NN (buildForest wStore 2 wRngs) 1 [wQuery] =
      ([wQuery].map (fun q =>
        ((linearScan2NN wStore q).best.map (fun p => p.2.2),
         (linearScan2NN wStore q).second.map (fun p => p.2.2)))).enum :=
  ⟨⟨List.cons_ne_nil _ _, by decide, wStore_dist_inj, by decide⟩,
   c1_query2NN_bruteforce_equivalence wStore 2 wRngs 1 [wQuery]
     (List.cons_ne_nil _ _) (by decide) wStore_dist_inj (by decide)⟩

/-- Eigen::ComputationInfo, as reported by the sparse QR solver. -/
inductive ComputationInfo where
  | Success
  | NumericalIssue
  | NoConvergence
  | InvalidInput
deriving DecidableEq

/-- Outcome of the sparse QR solver for one color channel: factorization status (from
compute), solve status, and the solution vector x.  Eigen is the external numerical
service the spec treats as a black box, so per-channel outcomes are a parameter of the
embedding of DebevecCalibrate::process. -/
structure SparseSolveOutcome where
  computeInfo : ComputationInfo
  solveInfo : ComputationInfo
  solution : Nat → Int

/-- Both solver stages for a channel succeeded. -/
def channelOk (o : SparseSolveOutcome) : Prop :=
  o.computeInfo = ComputationInfo.Success ∧ o.solveInfo = ComputationInfo.Success

instance (o : SparseSolveOutcome) : Decidable (channelOk o) :=
  inferInstanceAs (Decidable (_ ∧ _))

/-- The response curve: a value per channel and quantization index.  The rgbCurve header
is not part of this fragment; process only uses zero-initializing construction
(line 63) and setValue (line 168), which this function representation covers. -/
def RgbCurveM := Nat → Nat → Int

/-- A fresh zero curve, as rgbCurve(channelQuantization) constructs it. -/
def freshCurve : RgbCurveM := fun _ _ => 0

/-- Copy a solution vector into one response channel (DebevecCalibrate.cpp lines
166-169: response.setValue(k, channel, x(k)) for every k < channelQuantization). -/
def writeChannel (r : RgbCurveM) (c : Nat) (q : Nat) (x : Nat → Int) : RgbCurveM :=
  fun ch k => if ch = c ∧ k < q then x k else r ch k

/-- The per-channel solve loop of DebevecCalibrate::process (lines 139-170): factorize,
check solver.info(), solve, check again, copy the solution into the response channel;
return false at the first failing channel, leaving the channels written so far. -/
def solveChannels (solver : Nat → SparseSolveOutcome) (q : Nat) :
    List Nat → RgbCurveM → Bool × RgbCurveM
  | [], r => (true, r)
  | c :: cs, r =>
    if (solver c).computeInfo ≠ ComputationInfo.Success then (false, r)
    else if (solver c).solveInfo ≠ ComputationInfo.Success then (false, r)
    else solveChannels solver q cs (writeChannel r c q (solver c).solution)

/-- DebevecCalibrate::process (DebevecCalibrate.cpp line 24): the response output
parameter is unconditionally reassigned to a fresh rgbCurve(channelQuantization)
(line 63) — the incoming response is discarded — and then the three color channels are
solved in order by the channel loop (line 139). -/
def DebevecProcess (solver : Nat → SparseSolveOutcome) (channelQuantization : Nat)
    (_response : RgbCurveM) : Bool × RgbCurveM :=
  solveChannels solver channelQuantization [0, 1, 2] freshCurve

/-- The first channel (0, 1 or 2) at which the solver fails, or 3 if all succeed. -/
def firstFailIdx (solver : Nat → SparseSolveOutcome) : Nat :=
  if channelOk (solver 0) then
    (if channelOk (solver 1) then (if channelOk (solver 2) then 3 else 2) else 1)
  else 0

lemma solveChannels_cons_ok {solver : Nat → SparseSolveOutcome} {q c : Nat}
    {cs : List Nat} {r : RgbCurveM} (h : channelOk (solver c)) :
    solveChannels solver q (c :: cs) r =
      solveChannels solver q cs (writeChannel r c q (solver c).solution) := by
  rw [solveChannels]
  rw [if_neg (by simp [h.1]), if_neg (by simp [h.2])]

lemma solveChannels_cons_fail {solver : Nat → SparseSolveOutcome} {q c : Nat}
    {cs : List Nat} {r : RgbCurveM} (h : ¬ channelOk (solver c)) :
    solveChannels solver q (c :: cs) r = (false, r) := by
  rw [solveChannels]
  by_cases h1 : (solver c).computeInfo = ComputationInfo.Success
  · have h2 : (solver c).solveInfo ≠ ComputationInfo.Success := fun hs => h ⟨h1, hs⟩
    rw [if_neg (by simp [h1]), if_pos h2]
  · rw [if_pos h1]

/-- Full characterization of process: the returned flag is true exactly when no channel
fails, and the returned curve holds the solver solutions on the channels strictly
before the first failure (inside the quantization range) and fresh zeros elsewhere —
independently of the incoming response. -/
lemma debevec_curve_eq (solver : Nat → SparseSolveOutcome) (q : Nat) (r : RgbCurveM) :
    ((DebevecProcess solver q r).1 = true ↔ firstFailIdx solver = 3) ∧
    (DebevecProcess solver q r).2 = (fun ch k =>
      if ch < firstFailIdx solver ∧ k < q then (solver ch).solution k else 0) := by
  unfold DebevecProcess
  by_cases h0 : channelOk (solver 0)
  · by_cases h1 : channelOk (solver 1)
    · by_cases h2 : channelOk (solver 2)
      · have hff : firstFailIdx solver = 3 := by simp [firstFailIdx, h0, h1, h2]
        rw [solveChannels_cons_ok h0, solveChannels_cons_ok h1, solveChannels_cons_ok h2,
          hff]
        refine ⟨by simp [solveChannels], ?_⟩
        show writeChannel (writeChannel (writeChannel freshCurve 0 q _) 1 q _) 2 q _ = _
        funext ch k
        by_cases hk : k < q
        · rcases ch with _ | _ | _ | ch <;>
            (simp [writeChannel, freshCurve, hk]; try omega)
        · rcases ch with _ | _ | _ | ch <;>
            simp [writeChannel, freshCurve, hk]
      · have hff : firstFailIdx solver = 2 := by simp [firstFailIdx, h0, h1, h2]
        rw [solveChannels_cons_ok h0, solveChannels_cons_ok h1, solveChannels_cons_fail h2,
          hff]
        refine ⟨by simp, ?_⟩
        show writeChannel (writeChannel freshCurve 0 q _) 1 q _ = _
        funext ch k
        by_cases hk : k < q
        · rcases ch with _ | _ | ch <;>
            (simp [writeChannel, freshCurve, hk]; try omega)
        · rcases ch with _ | _ | ch <;>
            simp [writeChannel, freshCurve, hk]
    · have hff : firstFailIdx solver = 1 := by simp [firstFailIdx, h0, h1]
      rw [solveChannels_cons_ok h0, solveChannels_cons_fail h1, hff]
      refine ⟨by simp, ?_⟩
      show writeChannel freshCurve 0 q _ = _
      funext ch k
      by_cases hk : k < q
      · rcases ch with _ | ch <;>
          simp [writeChannel, freshCurve, hk]
      · rcases ch with _ | ch <;>
          simp [writeChannel, freshCurve, hk]
  · have hff : firstFailIdx solver = 0 := by simp [firstFailIdx, h0]
    rw [solveChannels_cons_fail h0, hff]
    refine ⟨by simp, ?_⟩
    funext ch k
    simp [freshCurve]

lemma firstFailIdx_le (solver : Nat → SparseSolveOutcome) : firstFailIdx solver ≤ 3 := by
  unfold firstFailIdx
  split_ifs <;> omega

/-- C8: process returns false exactly when the sparse QR solver reports failure — at
factorization or at solve time — for one of the three color channels; otherwise it
returns true with the per-channel response curve filled in from the solutions. -/
theorem c8_process_reports_solver_failure (solver : Nat → SparseSolveOutcome)
    (q : Nat) (r : RgbCurveM) :
    ((DebevecProcess solver q r).1 = true ↔
      ∀ c, c < 3 → (solver c).computeInfo = ComputationInfo.Success ∧
        (solver c).solveInfo = ComputationInfo.Success) ∧
    ((DebevecProcess solver q r).1 = true →
      ∀ c, c < 3 → ∀ k, k < q →
        (DebevecProcess solver q r).2 c k = (solver c).solution k) := by
  have hchar := debevec_curve_eq solver q r
  constructor
  · rw [hchar.1]
    constructor
    · intro h3 c hc
      by_cases h0 : channelOk (solver 0)
      · by_cases h1 : channelOk (solver 1)
        · by_cases h2 : channelOk (solver 2)
          · interval_cases c
            · exact h0
            · exact h1
            · exact h2
          · simp [firstFailIdx, h0, h1, h2] at h3
        · simp [firstFailIdx, h0, h1] at h3
      · simp [firstFailIdx, h0] at h3
    · intro hall
      have h0 : channelOk (solver 0) := hall 0 (by omega)
      have h1 : channelOk (solver 1) := hall 1 (by omega)
      have h2 : channelOk (solver 2) := hall 2 (by omega)
      simp [firstFailIdx, h0, h1, h2]
  · intro htrue c hc k hk
    rw [hchar.2]
    have hff : firstFailIdx solver = 3 := hchar.1.mp htrue
    rw [hff]
    show (if c < 3 ∧ k < q then (solver c).solution k else 0) = _
    rw [if_pos (show c < 3 ∧ k < q from ⟨hc, hk⟩)]

/-- An all-success concrete solver for the witnesses. -/
def wSolver : Nat → SparseSolveOutcome :=
  fun _ => ⟨ComputationInfo.Success, ComputationInfo.Success, fun _ => 5⟩

/-- A concrete solver whose channel 1 fails at factorization. -/
def wSolverFail : Nat → SparseSolveOutcome :=
  fun n => if n = 0 then ⟨ComputationInfo.Success, ComputationInfo.Success, fun _ => 7⟩
    else ⟨ComputationInfo.NumericalIssue, ComputationInfo.Success, fun _ => 0⟩

/-- Witness for C8 with the all-success solver: the flag is true and the curve holds
the solution. -/
theorem c8_process_reports_solver_failure_witness :
    (∀ c, c < 3 → (wSolver c).computeInfo = ComputationInfo.Success ∧
      (wSolver c).solveInfo = ComputationInfo.Success) ∧
    (DebevecProcess wSolver 4 freshCurve).1 = true ∧
    (0 : Nat) < 3 ∧ (0 : Nat) < 4 ∧
    (DebevecProcess wSolver 4 freshCurve).2 0 0 = (wSolver 0).solution 0 :=
  ⟨by decide,
   (c8_process_reports_solver_failure wSolver 4 freshCurve).1.mpr (by decide),
   by omega, by omega,
   (c8_process_reports_solver_failure wSolver 4 freshCurve).2
     ((c8_process_reports_solver_failure wSolver 4 freshCurve).1.mpr (by decide))
     0 (by omega) 0 (by omega)⟩

/-- C9: process reassigns the response to a fresh curve before solving, so its output
is the same whatever response the caller passed in — previous contents are discarded
even when it returns false — and the channels before the first failing channel have
already been written with the solver's solutions. -/
theorem c9_response_discarded_and_channels_written (solver : Nat → SparseSolveOutcome)
    (q : Nat) (r1 r2 : RgbCurveM) :
    (DebevecProcess solver q r1).2 = (DebevecProcess solver q r2).2 ∧
    ((DebevecProcess solver q r1).1 = false → firstFailIdx solver < 3) ∧
    (∀ c, c < firstFailIdx solver → ∀ k, k < q →
      (DebevecProcess solver q r1).2 c k = (solver c).solution k) := by
  refine ⟨rfl, ?_, ?_⟩
  · intro hfalse
    have hle := firstFailIdx_le solver
    by_contra hge
    have hff : firstFailIdx solver = 3 := by omega
    have htrue := (debevec_curve_eq solver q r1).1.mpr hff
    rw [hfalse] at htrue
    cases htrue
  · intro c hc k hk
    rw [(debevec_curve_eq solver q r1).2]
    show (if c < firstFailIdx solver ∧ k < q then (solver c).solution k else 0) = _
    rw [if_pos (show c < firstFailIdx solver ∧ k < q from ⟨hc, hk⟩)]

/-- Witness for C9 with the channel-1-failing solver: the result is input-independent,
returns false, and channel 0 was already written. -/
theorem c9_response_discarded_and_channels_written_witness :
    ((DebevecProcess wSolverFail 4 (fun _ _ => 9)).2 =
      (DebevecProcess wSolverFail 4 freshCurve).2) ∧
    ((DebevecProcess wSolverFail 4 (fun _ _ => 9)).1 = false →
      firstFailIdx wSolverFail < 3) ∧
    (0 : Nat) < firstFailIdx wSolverFail ∧ (0 : Nat) < 4 ∧
    (DebevecProcess wSolverFail 4 (fun _ _ => 9)).2 0 0 = (wSolverFail 0).solution 0 :=
  ⟨(c9_response_discarded_and_channels_written wSolverFail 4 (fun _ _ => 9) freshCurve).1,
   (c9_response_discarded_and_channels_written wSolverFail 4 (fun _ _ => 9) freshCurve).2.1,
   by decide, by omega,
   (c9_response_discarded_and_channels_written wSolverFail 4 (fun _ _ => 9) freshCurve).2.2
     0 (by decide) 0 (by omega)⟩

/-- The modulus of size_t arithmetic (64-bit unsigned). -/
def USIZE : Nat := 18446744073709551616

/-- group.size() - 1 computed in unsigned size_t arithmetic (the loop bound of
DebevecCalibrate.cpp line 83): for size 0 this wraps around to 2^64 - 1. -/
def usubOne (n : Nat) : Nat := (n + (USIZE - 1)) % USIZE

/-- The bracketId values iterated by the measurement-assembly loop for a group of the
given size: bracketId from 0 while bracketId < group.size() - 1 (line 83). -/
def bracketIdsOf (groupSize : Nat) : List Nat := List.range (usubOne groupSize)

/-- The (groupId, bracketId, sampleId) triples whose measurement rows the loop nest of
DebevecCalibrate.cpp lines 79-106 assembles; each group is represented by its
per-bracket sample counts (bracket_cur.colors.size()). -/
def measurementTriples (samples : List (List Nat)) : List (Nat × Nat × Nat) :=
  (samples.enum.map (fun p =>
    ((bracketIdsOf p.2.length).map (fun b =>
      (List.range (p.2.getD b 0)).map (fun s1 => (p.1, b, s1)))).flatten)).flatten

/-- Every access group[bracketId] made by the bracket loop is in bounds. -/
def accessesInBounds (samples : List (List Nat)) : Prop :=
  ∀ g ∈ samples, ∀ b ∈ bracketIdsOf g.length, b < g.length

lemma usubOne_le {n : Nat} (h : 1 ≤ n) : usubOne n ≤ n - 1 := by
  unfold usubOne USIZE
  omega

/-- C10: the measurement-assembly loop iterates bracketId over [0, group.size() − 1);
for any real (sub-2^64) nonempty group that is exactly [0, size − 1], so the last
bracket of every group contributes no measurement rows; and because the bound is
computed in unsigned arithmetic, the accesses group[bracketId] are in bounds exactly
when every sample group is non-empty. -/
theorem c10_bracket_loop_unsigned_bound (samples : List (List Nat)) :
    (∀ n, 1 ≤ n → n ≤ USIZE → bracketIdsOf n = List.range (n - 1)) ∧
    (accessesInBounds samples ↔ ∀ g ∈ samples, g ≠ []) ∧
    (∀ t ∈ measurementTriples samples, t.1 < samples.length ∧
      t.2.1 + 1 < (samples.getD t.1 []).length) := by
  refine ⟨?_, ?_, ?_⟩
  · intro n h1 h2
    unfold bracketIdsOf
    have hsub : usubOne n = n - 1 := by
      unfold usubOne USIZE
      unfold USIZE at h2
      omega
    rw [hsub]
  · constructor
    · intro hin g hg
      intro hnil
      have h0 : (0 : Nat) ∈ bracketIdsOf g.length := by
        rw [hnil]
        unfold bracketIdsOf usubOne USIZE
        rw [List.mem_range]
        simp only [List.length_nil]
        omega
      have := hin g hg 0 h0
      rw [hnil] at this
      simp at this
    · intro hne g hg b hb
      have h1 : 1 ≤ g.length := by
        have := hne g hg
        cases g with
        | nil => exact absurd rfl this
        | cons a l => simp
      have hlt : b < usubOne g.length := List.mem_range.mp hb
      have := usubOne_le h1
      omega
  · intro t ht
    unfold measurementTriples at ht
    rw [List.mem_flatten] at ht
    obtain ⟨inner, hinner, htin⟩ := ht
    rcases List.mem_map.mp hinner with ⟨p, hp, rfl⟩
    rw [List.mem_flatten] at htin
    obtain ⟨inner2, hinner2, htin2⟩ := htin
    rcases List.mem_map.mp hinner2 with ⟨b, hbmem, rfl⟩
    rcases List.mem_map.mp htin2 with ⟨s1, hs1, rfl⟩
    have hgid : samples[p.1]? = some p.2 := List.mem_enum_iff_getElem?.mp hp
    have hgle : p.1 < samples.length := by
      by_contra hge
      rw [List.getElem?_eq_none (by omega)] at hgid
      cases hgid
    have hgd : samples.getD p.1 [] = p.2 := by
      rw [List.getD_eq_getElem?_getD, hgid]
      rfl
    have hcount : 1 ≤ p.2.getD b 0 := by
      have := List.mem_range.mp hs1
      omega
    have hblen : b < p.2.length := by
      by_contra hge
      rw [List.getD_eq_default _ _ (by omega)] at hcount
      omega
    have h1 : 1 ≤ p.2.length := by omega
    have hb2 : b < usubOne p.2.length := List.mem_range.mp hbmem
    have := usubOne_le h1
    refine ⟨hgle, ?_⟩
    rw [hgd]
    show b + 1 < p.2.length
    omega

/-- Witness for C10 on a concrete sample set with one group of two brackets holding 2
and 3 samples. -/
theorem c10_bracket_loop_unsigned_bound_witness :
    (1 ≤ 2 ∧ 2 ≤ USIZE ∧ bracketIdsOf 2 = List.range 1) ∧
    (accessesInBounds [[2, 3]] ↔ ∀ g ∈ [[2, 3]], g ≠ ([] : List Nat)) ∧
    ((0, 0, 1) ∈ measurementTriples [[2, 3]] ∧
      (0 : Nat) < ([[2, 3]] : List (List Nat)).length ∧
      0 + 1 < (([[2, 3]] : List (List Nat)).getD 0 []).length) :=
  ⟨⟨by omega, by unfold USIZE; omega,
    (c10_bracket_loop_unsigned_bound [[2, 3]]).1 2 (by omega) (by unfold USIZE; omega)⟩,
   (c10_bracket_loop_unsigned_bound [[2, 3]]).2.1,
   by
     have hmem : (0, 0, 1) ∈ measurementTriples [[2, 3]] := by
       unfold measurementTriples bracketIdsOf usubOne USIZE
       decide
     exact ⟨hmem, ((c10_bracket_loop_unsigned_bound [[2, 3]]).2.2 (0, 0, 1) hmem).1,
       ((c10_bracket_loop_unsigned_bound [[2, 3]]).2.2 (0, 0, 1) hmem).2⟩⟩
